import Mathlib

/-!
Verification of the algorithm-visualizer core (`src/main.c`) against its
natural-language specification.

The C program instruments classic data-structure operations: every operation
mutates its structure in place and appends `Step` records to a global,
capacity-bounded trace buffer via `add_step`.  We embed the program shallowly:

* C arrays become `List Int`; the index arithmetic of the loops is kept
  (reads are `getD`, writes are `set`, loops become structural recursion on
  the number of remaining iterations, which is forced by the loop bounds).
* The global step buffer is factored out: each operation returns, next to its
  data result, the list of `Step` records it passes to `add_step`, in order.
  The buffer itself is the fold of `add_step` over that list; this is faithful
  because in the C program `add_step` is the only writer of the buffer and no
  operation ever reads it.
* `int` values stay `Int`; indices and sizes are `Nat` (all the C index
  variables that can momentarily be negative, such as `i` in `partition` or
  `j` in `insertion_sort`, are shifted by one, as noted at their definitions).
-/

set_option maxHeartbeats 1000000

namespace FODS

/-- `MAX_SIZE` (main.c line 10): capacity of every backing array. -/
def MAX_SIZE : Nat := 100

/-- `MAX_STEPS` (main.c line 11): hard capacity of the trace buffer. -/
def MAX_STEPS : Nat := 1000

/-- `MAX_ARRAY_SIZE` (main.c line 14): validated bound on user array sizes. -/
def MAX_ARRAY_SIZE : Nat := 50

/-- The `Step` record (main.c lines 24-32).  `data` and `highlighted` hold the
first `size` entries of the fixed C arrays — exactly the entries `add_step`
copies and the serializer emits. -/
structure Step where
  action : String
  data : List Int
  size : Nat
  highlighted : List Int
  pointers : List Int
  description : String
  complexity : String
deriving DecidableEq

/-- A zeroed highlight array, `int highlighted[MAX_SIZE] = {0}`. -/
def zeros100 : List Int := List.replicate MAX_SIZE 0

/-- The `Step` record built by `add_step` (main.c lines 254-271): it copies
`data[i]` and `highlighted[i]` for `i < size && i < MAX_SIZE` (a null
`highlighted` reads as 0), copies all ten pointer slots (a null `pointers`
reads as -1), and truncates the description to 199 and the complexity to 49
characters (`strncpy` plus forced terminator). -/
def mkStep (action : String) (data : List Int) (size : Nat)
    (highlighted : Option (List Int)) (pointers : Option (List Int))
    (desc cx : String) : Step :=
  { action := action
    size := size
    data := (List.range (min size MAX_SIZE)).map (fun i => data.getD i 0)
    highlighted := (List.range (min size MAX_SIZE)).map (fun i =>
      match highlighted with
      | some h => h.getD i 0
      | none => 0)
    pointers := (List.range 10).map (fun i =>
      match pointers with
      | some p => p.getD i (-1)
      | none => -1)
    description := desc.take 199
    complexity := cx.take 49 }

/-- The trace-buffer append performed by `add_step` (main.c lines 251-274):
`if (step_count >= MAX_STEPS) return;` silently drops the step once the
buffer is full, otherwise the step is appended. -/
def add_step (buf : List Step) (s : Step) : List Step :=
  if MAX_STEPS ≤ buf.length then buf else buf ++ [s]

/-- `swap` (main.c lines 284-288) applied to two array cells, as in
`swap(&arr[i], &arr[j])`. -/
def listSwap (a : List Int) (i j : Nat) : List Int :=
  let x := a.getD i 0
  let y := a.getD j 0
  (a.set i y).set j x

/-- A zero-initialized highlight array with every position in `lo..hi` set to
`v` (the `for` loops such as main.c lines 877-879). -/
def setRange (l : List Int) (lo hi : Nat) (v : Int) : List Int :=
  (List.range l.length).map (fun k => if lo ≤ k ∧ k ≤ hi then v else l.getD k 0)

/-! ### Bubble sort (main.c lines 756-781) -/

/-- Inner loop of `bubble_sort` (main.c lines 758-775).  The loop runs
`for (j = 0; j < size - i - 1; j++)`; `rem` is the number of iterations left,
i.e. `(size - i - 1) - j`. -/
def bubbleInner (size : Nat) : List Int → Nat → Nat → List Int × List Step
  | a, _, 0 => (a, [])
  | a, j, rem + 1 =>
    let hl := ((List.replicate MAX_SIZE (0 : Int)).set j 1).set (j + 1) 1
    let cmp := mkStep "BUBBLE_COMPARE" a size (some hl) none
      ("Comparing arr[" ++ toString j ++ "]=" ++ toString (a.getD j 0) ++
        " and arr[" ++ toString (j + 1) ++ "]=" ++ toString (a.getD (j + 1) 0))
      "O(n^2)"
    if a.getD j 0 > a.getD (j + 1) 0 then
      let a2 := listSwap a j (j + 1)
      let hl2 := (hl.set j 2).set (j + 1) 2
      let sw := mkStep "BUBBLE_SWAP" a2 size (some hl2) none
        "Elements swapped" "O(n^2)"
      let r := bubbleInner size a2 (j + 1) rem
      (r.1, cmp :: sw :: r.2)
    else
      let r := bubbleInner size a (j + 1) rem
      (r.1, cmp :: r.2)

/-- Outer loop of `bubble_sort` (main.c line 757), `for (i = 0; i < size - 1;
i++)`; `rem` is the number of iterations left, i.e. `(size - 1) - i`. -/
def bubbleOuter (size : Nat) : List Int → Nat → Nat → List Int × List Step
  | a, _, 0 => (a, [])
  | a, i, rem + 1 =>
    let r1 := bubbleInner size a 0 (size - i - 1)
    let r2 := bubbleOuter size r1.1 (i + 1) rem
    (r2.1, r1.2 ++ r2.2)

/-- `bubble_sort` (main.c lines 756-781). -/
def bubble_sort (a : List Int) (size : Nat) : List Int × List Step :=
  let r := bubbleOuter size a 0 (size - 1)
  let fin := mkStep "BUBBLE_COMPLETE" r.1 size (some (List.replicate MAX_SIZE 0))
    none "Bubble sort completed" "O(n^2)"
  (r.1, r.2 ++ [fin])

/-! ### Selection sort (main.c lines 783-820) -/

/-- Inner scan of `selection_sort` (main.c lines 792-805),
`for (j = i + 1; j < size; j++)`; `rem` is `size - j`.  The array is not
modified by the scan; only the running minimum index is returned. -/
def selInner (a : List Int) (size i : Nat) : Nat → Nat → Nat → Nat × List Step
  | min_idx, _, 0 => (min_idx, [])
  | min_idx, j, rem + 1 =>
    let hl := (((List.replicate MAX_SIZE (0 : Int)).set i 1).set min_idx 2).set j 3
    let st := mkStep "SELECTION_COMPARE" a size (some hl) none
      ("Comparing with element at index " ++ toString j) "O(n^2)"
    let m2 := if a.getD j 0 < a.getD min_idx 0 then j else min_idx
    let r := selInner a size i m2 (j + 1) rem
    (r.1, st :: r.2)

/-- Outer loop of `selection_sort` (main.c lines 784-815),
`for (i = 0; i < size - 1; i++)`; `rem` is `(size - 1) - i`. -/
def selOuter (size : Nat) : List Int → Nat → Nat → List Int × List Step
  | a, _, 0 => (a, [])
  | a, i, rem + 1 =>
    let hlStart := (List.replicate MAX_SIZE (0 : Int)).set i 1
    let stStart := mkStep "SELECTION_START" a size (some hlStart) none
      "Starting new pass" "O(n^2)"
    let pr := selInner a size i i (i + 1) (size - (i + 1))
    let min_idx := pr.1
    if min_idx ≠ i then
      let a2 := listSwap a i min_idx
      let hlSwap := ((List.replicate MAX_SIZE (0 : Int)).set i 2).set min_idx 2
      let stSwap := mkStep "SELECTION_SWAP" a2 size (some hlSwap) none
        "Swapped minimum element" "O(n^2)"
      let r := selOuter size a2 (i + 1) rem
      (r.1, stStart :: (pr.2 ++ stSwap :: r.2))
    else
      let r := selOuter size a (i + 1) rem
      (r.1, stStart :: (pr.2 ++ r.2))

/-- `selection_sort` (main.c lines 783-820). -/
def selection_sort (a : List Int) (size : Nat) : List Int × List Step :=
  let r := selOuter size a 0 (size - 1)
  (r.1, r.2 ++ [mkStep "SELECTION_COMPLETE" r.1 size
    (some (List.replicate MAX_SIZE 0)) none "Selection sort completed" "O(n^2)"])

/-! ### Insertion sort (main.c lines 822-857) -/

/-- Inner `while (j >= 0 && arr[j] > key)` loop of `insertion_sort`
(main.c lines 834-844).  The C index `j` can reach -1, so the recursion is on
`p = j + 1`; the returned `Nat` is the final `p`, i.e. the slot `j + 1` into
which the key is then written. -/
def insInner (size : Nat) (key : Int) : List Int → Nat → (List Int × Nat) × List Step
  | a, 0 => ((a, 0), [])
  | a, p + 1 =>
    if a.getD p 0 > key then
      let a2 := a.set (p + 1) (a.getD p 0)
      let hl := ((List.replicate MAX_SIZE (0 : Int)).set p 1).set (p + 1) 2
      let st := mkStep "INSERTION_SHIFT" a2 size (some hl) none
        "Shifting element right" "O(n^2)"
      let r := insInner size key a2 p
      (r.1, st :: r.2)
    else ((a, p + 1), [])

/-- Outer loop of `insertion_sort` (main.c lines 823-852),
`for (i = 1; i < size; i++)`; `rem` is `size - i`. -/
def insOuter (size : Nat) : List Int → Nat → Nat → List Int × List Step
  | a, _, 0 => (a, [])
  | a, i, rem + 1 =>
    let key := a.getD i 0
    let hlS := (List.replicate MAX_SIZE (0 : Int)).set i 1
    let stS := mkStep "INSERTION_START" a size (some hlS) none
      ("Inserting element " ++ toString key) "O(n^2)"
    let r1 := insInner size key a i
    let a2 := r1.1.1.set r1.1.2 key
    let hlP := (List.replicate MAX_SIZE (0 : Int)).set r1.1.2 2
    let stP := mkStep "INSERTION_PLACE" a2 size (some hlP) none
      "Element placed in correct position" "O(n^2)"
    let r2 := insOuter size a2 (i + 1) rem
    (r2.1, stS :: (r1.2 ++ stP :: r2.2))

/-- `insertion_sort` (main.c lines 822-857). -/
def insertion_sort (a : List Int) (size : Nat) : List Int × List Step :=
  let r := insOuter size a 1 (size - 1)
  (r.1, r.2 ++ [mkStep "INSERTION_COMPLETE" r.1 size
    (some (List.replicate MAX_SIZE 0)) none "Insertion sort completed" "O(n^2)"])

/-! ### Quick sort (main.c lines 859-961) -/

/-- The `for (j = low; j <= high - 1; j++)` scan of `partition`
(main.c lines 915-944).  The C variable `i` starts at `low - 1`, which can be
-1; the parameter `ip1` is `i + 1` throughout.  `rem` is `high - j`. -/
def partLoop (osize low high : Nat) (pivot : Int) :
    List Int → Nat → Nat → Nat → (List Int × Nat) × List Step
  | a, ip1, _, 0 => ((a, ip1), [])
  | a, ip1, j, rem + 1 =>
    let hl1 := ((List.replicate MAX_SIZE (0 : Int)).set high 3).set j 1
    let hl := if low < ip1 then hl1.set (ip1 - 1) 2 else hl1
    let stC := mkStep "QUICK_COMPARE" a osize (some hl) none
      ("Comparing " ++ toString (a.getD j 0) ++ " with pivot " ++ toString pivot)
      "O(n log n)"
    if a.getD j 0 < pivot then
      -- i++ makes the C index i equal to ip1
      if ip1 ≠ j then
        let hlS := (((List.replicate MAX_SIZE (0 : Int)).set ip1 2).set j 2).set high 3
        let stB := mkStep "QUICK_SWAP_BEFORE" a osize (some hlS) none
          ("Swapping " ++ toString (a.getD ip1 0) ++ " and " ++ toString (a.getD j 0))
          "O(n log n)"
        let a2 := listSwap a ip1 j
        let stA := mkStep "QUICK_SWAP_AFTER" a2 osize (some hlS) none
          "Elements swapped" "O(n log n)"
        let r := partLoop osize low high pivot a2 (ip1 + 1) (j + 1) rem
        (r.1, stC :: stB :: stA :: r.2)
      else
        let r := partLoop osize low high pivot a (ip1 + 1) (j + 1) rem
        (r.1, stC :: r.2)
    else
      let r := partLoop osize low high pivot a ip1 (j + 1) rem
      (r.1, stC :: r.2)

/-- `partition` (main.c lines 904-961): Lomuto partition with the last element
as pivot.  Returns the array, the pivot's final index `i + 1`, and the steps. -/
def partition (a : List Int) (osize low high : Nat) : (List Int × Nat) × List Step :=
  let pivot := a.getD high 0
  let hlP := (List.replicate MAX_SIZE (0 : Int)).set high 3
  let stP := mkStep "QUICK_PIVOT_SELECT" a osize (some hlP) none
    ("Selected pivot: " ++ toString pivot ++ " at index " ++ toString high)
    "O(n log n)"
  let r := partLoop osize low high pivot a low low (high - low)
  let a1 := r.1.1
  let ip1 := r.1.2
  let hlF := (((List.replicate MAX_SIZE (0 : Int)).set ip1 2).set high 2).set high 3
  let stB := mkStep "QUICK_PIVOT_PLACE_BEFORE" a1 osize (some hlF) none
    ("Placing pivot in final position: swapping " ++ toString (a1.getD ip1 0) ++
      " and " ++ toString (a1.getD high 0)) "O(n log n)"
  let a2 := listSwap a1 ip1 high
  let stA := mkStep "QUICK_PIVOT_PLACE_AFTER" a2 osize (some hlF) none
    "Pivot placed in correct position" "O(n log n)"
  ((a2, ip1), stP :: (r.2 ++ [stB, stA]))

/-- `quick_sort` (main.c lines 873-902), recursion made structural on a fuel
that bounds `high + 1 - low`.  With `fuel = high + 1 - low` at the top call
the fuel never runs out (the pivot index returned by `partition` lies in
`[low, high]`, which is proved below), so the fuel-0 branch is unreachable
for the actual calls. -/
def quick_sortF (osize : Nat) : Nat → List Int → Nat → Nat → List Int × List Step
  | 0, a, _, _ => (a, [])
  | fuel + 1, a, low, high =>
    if low < high then
      let subHl := setRange zeros100 low high 1
      let stSub := mkStep "QUICK_SUBARRAY" a osize (some subHl) none
        ("Processing subarray from index " ++ toString low ++ " to " ++ toString high)
        "O(n log n)"
      let pr := partition a osize low high
      let a1 := pr.1.1
      let pi := pr.1.2
      let stPF := mkStep "QUICK_PIVOT_FINAL" a1 osize
        (some ((List.replicate MAX_SIZE (0 : Int)).set pi 3)) none
        ("Pivot " ++ toString (a1.getD pi 0) ++
          " is now in its final position at index " ++ toString pi) "O(n log n)"
      let stRL := mkStep "QUICK_RECURSIVE_LEFT" a1 osize (some subHl) none
        ("Recursively sorting left subarray [" ++ toString low ++ "-" ++
          toString (pi - 1) ++ "]") "O(n log n)"
      let rl := quick_sortF osize fuel a1 low (pi - 1)
      let stRR := mkStep "QUICK_RECURSIVE_RIGHT" rl.1 osize (some subHl) none
        ("Recursively sorting right subarray [" ++ toString (pi + 1) ++ "-" ++
          toString high ++ "]") "O(n log n)"
      let rr := quick_sortF osize fuel rl.1 (pi + 1) high
      (rr.1, stSub :: (pr.2 ++ stPF :: stRL :: (rl.2 ++ stRR :: rr.2)))
    else (a, [])

/-- `quick_sort(arr, low, high, original_size)` at adequate fuel. -/
def quick_sort (a : List Int) (osize low high : Nat) : List Int × List Step :=
  quick_sortF osize (high + 1 - low) a low high

/-- `quick_sort_wrapper` (main.c lines 860-871). -/
def quick_sort_wrapper (a : List Int) (size : Nat) : List Int × List Step :=
  let hl := List.replicate MAX_SIZE (0 : Int)
  let st0 := mkStep "QUICK_START" a size (some hl) none
    "Starting Quick Sort Algorithm" "O(n log n)"
  let r := quick_sort a size 0 (size - 1)
  let st1 := mkStep "QUICK_COMPLETE" r.1 size (some hl) none
    "Quick Sort Completed - Array is sorted" "O(n log n)"
  (r.1, st0 :: (r.2 ++ [st1]))

/-! ### Merge sort (main.c lines 963-1113) -/

/-- State threaded through the loops of `merge` (main.c 1019-1113): the work
array `arr`, the visualization array `original_arr`, and the indices
`i`, `j`, `k`. -/
structure MergeSt where
  arr : List Int
  orig : List Int
  i : Nat
  j : Nat
  k : Nat
deriving DecidableEq

/-- The `while (i < n1 && j < n2)` merge loop (main.c lines 1046-1078).
`la` and `ra` are the temporary copies `left_arr`/`right_arr`; the fuel is at
least `(n1 - i) + (n2 - j)`, and the loop guard is checked inside so extra
fuel is harmless. -/
def mergeLoop (la ra : List Int) (osize left mid : Nat) :
    MergeSt → Nat → MergeSt × List Step
  | st, 0 => (st, [])
  | st, rem + 1 =>
    if st.i < la.length ∧ st.j < ra.length then
      let hlC := ((List.replicate MAX_SIZE (0 : Int)).set (left + st.i) 1).set
        (mid + 1 + st.j) 2
      let stC := mkStep "MERGE_COMPARE" st.orig osize (some hlC) none
        ("Comparing " ++ toString (la.getD st.i 0) ++ " (left) and " ++
          toString (ra.getD st.j 0) ++ " (right)") "O(n log n)"
      if la.getD st.i 0 ≤ ra.getD st.j 0 then
        let a2 := st.arr.set st.k (la.getD st.i 0)
        let hlP := (List.replicate MAX_SIZE (0 : Int)).set st.k 3
        let stT := mkStep "MERGE_TAKE_LEFT" st.orig osize (some hlP) none
          ("Taking " ++ toString (la.getD st.i 0) ++ " from left subarray")
          "O(n log n)"
        let orig2 := st.orig.set st.k (a2.getD st.k 0)
        let r := mergeLoop la ra osize left mid
          { arr := a2, orig := orig2, i := st.i + 1, j := st.j, k := st.k + 1 } rem
        (r.1, stC :: stT :: r.2)
      else
        let a2 := st.arr.set st.k (ra.getD st.j 0)
        let hlP := (List.replicate MAX_SIZE (0 : Int)).set st.k 3
        let stT := mkStep "MERGE_TAKE_RIGHT" st.orig osize (some hlP) none
          ("Taking " ++ toString (ra.getD st.j 0) ++ " from right subarray")
          "O(n log n)"
        let orig2 := st.orig.set st.k (a2.getD st.k 0)
        let r := mergeLoop la ra osize left mid
          { arr := a2, orig := orig2, i := st.i, j := st.j + 1, k := st.k + 1 } rem
        (r.1, stC :: stT :: r.2)
    else (st, [])

/-- The `while (i < n1)` trailing copy (main.c lines 1081-1092). -/
def mergeCopyLeft (la : List Int) (osize : Nat) :
    MergeSt → Nat → MergeSt × List Step
  | st, 0 => (st, [])
  | st, rem + 1 =>
    if st.i < la.length then
      let a2 := st.arr.set st.k (la.getD st.i 0)
      let orig2 := st.orig.set st.k (a2.getD st.k 0)
      let hlP := (List.replicate MAX_SIZE (0 : Int)).set st.k 3
      let st1 := mkStep "MERGE_COPY_LEFT" orig2 osize (some hlP) none
        ("Copying remaining element " ++ toString (la.getD st.i 0) ++
          " from left subarray") "O(n log n)"
      let r := mergeCopyLeft la osize
        { arr := a2, orig := orig2, i := st.i + 1, j := st.j, k := st.k + 1 } rem
      (r.1, st1 :: r.2)
    else (st, [])

/-- The `while (j < n2)` trailing copy (main.c lines 1095-1106). -/
def mergeCopyRight (ra : List Int) (osize : Nat) :
    MergeSt → Nat → MergeSt × List Step
  | st, 0 => (st, [])
  | st, rem + 1 =>
    if st.j < ra.length then
      let a2 := st.arr.set st.k (ra.getD st.j 0)
      let orig2 := st.orig.set st.k (a2.getD st.k 0)
      let hlP := (List.replicate MAX_SIZE (0 : Int)).set st.k 3
      let st1 := mkStep "MERGE_COPY_RIGHT" orig2 osize (some hlP) none
        ("Copying remaining element " ++ toString (ra.getD st.j 0) ++
          " from right subarray") "O(n log n)"
      let r := mergeCopyRight ra osize
        { arr := a2, orig := orig2, i := st.i, j := st.j + 1, k := st.k + 1 } rem
      (r.1, st1 :: r.2)
    else (st, [])

/-- `merge` (main.c lines 1019-1113): copies `arr[left..mid]` and
`arr[mid+1..right]` into scratch lists and merges them back, updating
`original_arr` per placement. -/
def mergeSeg (a orig : List Int) (osize left mid right : Nat) :
    (List Int × List Int) × List Step :=
  let n1 := mid - left + 1
  let n2 := right - mid
  let la := (a.drop left).take n1
  let ra := (a.drop (mid + 1)).take n2
  let hlM := setRange (setRange zeros100 left mid 1) (mid + 1) right 2
  let stM := mkStep "MERGE_START" orig osize (some hlM) none
    ("Merging two sorted subarrays: Left[" ++ toString left ++ "-" ++
      toString mid ++ "] and Right[" ++ toString (mid + 1) ++ "-" ++
      toString right ++ "]") "O(n log n)"
  let st0 : MergeSt := { arr := a, orig := orig, i := 0, j := 0, k := left }
  let r1 := mergeLoop la ra osize left mid st0 (n1 + n2)
  let r2 := mergeCopyLeft la osize r1.1 n1
  let r3 := mergeCopyRight ra osize r2.1 n2
  let hlD := setRange zeros100 left right 4
  let stD := mkStep "MERGE_COMPLETE_SUB" r3.1.orig osize (some hlD) none
    ("Subarray [" ++ toString left ++ "-" ++ toString right ++
      "] successfully merged and sorted") "O(n log n)"
  ((r3.1.arr, r3.1.orig), stM :: (r1.2 ++ r2.2 ++ r3.2 ++ [stD]))

/-- `merge_sort` (main.c lines 984-1017), recursion made structural on a fuel
bounding `right + 1 - left` (with `fuel = right + 1 - left` at the top call
the fuel never runs out since `mid` is strictly inside the range). -/
def merge_sortF (osize : Nat) : Nat → List Int → Nat → Nat → List Int →
    (List Int × List Int) × List Step
  | 0, a, _, _, orig => ((a, orig), [])
  | fuel + 1, a, left, right, orig =>
    if left < right then
      let mid := left + (right - left) / 2
      let stDL := mkStep "MERGE_DIVIDE_LEFT" orig osize
        (some (setRange zeros100 left mid 1)) none
        ("Dividing: Left half [" ++ toString left ++ "-" ++ toString mid ++ "]")
        "O(n log n)"
      let r1 := merge_sortF osize fuel a left mid orig
      let stDR := mkStep "MERGE_DIVIDE_RIGHT" r1.1.2 osize
        (some (setRange zeros100 (mid + 1) right 2)) none
        ("Dividing: Right half [" ++ toString (mid + 1) ++ "-" ++ toString right ++ "]")
        "O(n log n)"
      let r2 := merge_sortF osize fuel r1.1.1 (mid + 1) right r1.1.2
      let hlR := setRange (setRange zeros100 left mid 1) (mid + 1) right 2
      let stR := mkStep "MERGE_READY" r2.1.2 osize (some hlR) none
        ("Both halves sorted, ready to merge [" ++ toString left ++ "-" ++
          toString mid ++ "] and [" ++ toString (mid + 1) ++ "-" ++
          toString right ++ "]") "O(n log n)"
      let r3 := mergeSeg r2.1.1 r2.1.2 osize left mid right
      (r3.1, stDL :: (r1.2 ++ stDR :: (r2.2 ++ stR :: r3.2)))
    else ((a, orig), [])

/-- `merge_sort_wrapper` (main.c lines 964-982): works on a copy `temp`,
keeps the original array `arr` updated for visualization, and copies the
sorted result back at the end. -/
def merge_sort_wrapper (a : List Int) (size : Nat) : List Int × List Step :=
  let hl := List.replicate MAX_SIZE (0 : Int)
  let st0 := mkStep "MERGE_START" a size (some hl) none
    "Starting Merge Sort Algorithm" "O(n log n)"
  let temp := a
  let r := merge_sortF size (size - 1 + 1 - 0) temp 0 (size - 1) a
  let arr2 := r.1.1
  let st1 := mkStep "MERGE_COMPLETE" arr2 size (some hl) none
    "Merge Sort Completed - Array is sorted" "O(n log n)"
  (arr2, st0 :: (r.2 ++ [st1]))

/-! ### Binary search tree (main.c lines 34-39, 296-476) -/

/-- `TreeNode` (main.c lines 35-39). -/
inductive Tree where
  | nil : Tree
  | node (data : Int) (left right : Tree) : Tree
deriving DecidableEq

/-- Pre-order flatten: node, left subtree, right subtree. -/
def preorder : Tree → List Int
  | .nil => []
  | .node d l r => d :: (preorder l ++ preorder r)

/-- `tree_to_array` (main.c lines 344-352): pre-order flatten capped at
`max_nodes` entries (the recursion stops once `index` reaches the cap, which
yields exactly the first `max_nodes` elements of the pre-order flatten). -/
def tree_to_array (t : Tree) (max_nodes : Nat) : List Int :=
  (preorder t).take max_nodes

/-- Node count of a tree. -/
def treeCount : Tree → Nat
  | .nil => 0
  | .node _ l r => 1 + treeCount l + treeCount r

/-- The highlight loop used by the BST operations (e.g. main.c lines 331-336):
scan the flatten and tag the first position holding `v` with `tag`. -/
def hlFirst (arr : List Int) (v : Int) (tag : Int) : List Int :=
  match arr.findIdx? (fun x => x == v) with
  | some i => (List.replicate MAX_SIZE (0 : Int)).set i tag
  | none => List.replicate MAX_SIZE (0 : Int)

/-- `insert_bst` (main.c lines 305-342).  Note that on a duplicate value the
comparisons at lines 320-324 skip both recursive calls but execution still
falls through to the `add_step` at line 338, so a step is emitted at every
node on the descent path even when nothing is inserted. -/
def insert_bst : Tree → Int → Tree × List Step
  | .nil, data =>
    let t := Tree.node data .nil .nil
    let tree_arr := tree_to_array t MAX_SIZE
    let hl := (List.replicate MAX_SIZE (0 : Int)).set 0 1
    (t, [mkStep "INSERT_BST" tree_arr tree_arr.length (some hl) none
      "Inserted root node" "O(1)"])
  | .node d l r, data =>
    let rec_result :=
      if data < d then
        let rl := insert_bst l data
        (Tree.node d rl.1 r, rl.2)
      else if data > d then
        let rr := insert_bst r data
        (Tree.node d l rr.1, rr.2)
      else (Tree.node d l r, [])
    let t2 := rec_result.1
    let tree_arr := tree_to_array t2 MAX_SIZE
    let hl := hlFirst tree_arr data 1
    (t2, rec_result.2 ++ [mkStep "INSERT_BST" tree_arr tree_arr.length (some hl)
      none "Node inserted in BST" "O(log n)"])

/-- The `while (temp->left != NULL) temp = temp->left;` successor scan of
`delete_bst` (main.c lines 450-453), returning the leftmost value. -/
def leftmostVal : Tree → Int
  | .nil => 0
  | .node d .nil _ => d
  | .node _ (Tree.node d' l' r') _ => leftmostVal (Tree.node d' l' r')

/-- `delete_bst` (main.c lines 400-467).  A null root emits
`DELETE_BST_NOT_FOUND`; otherwise a `DELETE_BST_SEARCH` step is emitted at
every visited node; the one-child cases return early (skipping the
`DELETE_BST_COMPLETE` step at line 463), the other paths emit
`DELETE_BST_COMPLETE` on the way back up. -/
def delete_bst : Tree → Int → Tree × List Step
  | .nil, _ =>
    ( .nil,
      [mkStep "DELETE_BST_NOT_FOUND" [] 0 (some (List.replicate MAX_SIZE 0)) none
        "Element not found in BST" "O(log n)"])
  | .node d l r, data =>
    let t := Tree.node d l r
    let tree_arr := tree_to_array t MAX_SIZE
    let hl := hlFirst tree_arr d 1
    let st1 := mkStep "DELETE_BST_SEARCH" tree_arr tree_arr.length (some hl) none
      ("Searching for " ++ toString data ++ " to delete, checking node " ++
        toString d) "O(log n)"
    if data < d then
      let rl := delete_bst l data
      let t2 := Tree.node d rl.1 r
      let arr2 := tree_to_array t2 MAX_SIZE
      let stC := mkStep "DELETE_BST_COMPLETE" arr2 arr2.length
        (some (List.replicate MAX_SIZE 0)) none "Node deleted from BST" "O(log n)"
      (t2, st1 :: (rl.2 ++ [stC]))
    else if data > d then
      let rr := delete_bst r data
      let t2 := Tree.node d l rr.1
      let arr2 := tree_to_array t2 MAX_SIZE
      let stC := mkStep "DELETE_BST_COMPLETE" arr2 arr2.length
        (some (List.replicate MAX_SIZE 0)) none "Node deleted from BST" "O(log n)"
      (t2, st1 :: (rr.2 ++ [stC]))
    else
      let hl2 := hlFirst tree_arr data 2
      let stF := mkStep "DELETE_BST_FOUND" tree_arr tree_arr.length (some hl2) none
        "Node found - proceeding with deletion" "O(log n)"
      match l, r with
      | .nil, _ => (r, [st1, stF])
      | .node dl ll rl, .nil => (Tree.node dl ll rl, [st1, stF])
      | .node dl ll rl, .node dr lr rr =>
        let l0 := Tree.node dl ll rl
        let r0 := Tree.node dr lr rr
        let succv := leftmostVal r0
        let rd := delete_bst r0 succv
        let t2 := Tree.node succv l0 rd.1
        let arr2 := tree_to_array t2 MAX_SIZE
        let stC := mkStep "DELETE_BST_COMPLETE" arr2 arr2.length
          (some (List.replicate MAX_SIZE 0)) none "Node deleted from BST" "O(log n)"
        (t2, st1 :: stF :: (rd.2 ++ [stC]))

/-- `inorder_traversal` (main.c lines 469-476): left, node, right. -/
def inorder : Tree → List Int
  | .nil => []
  | .node d l r => inorder l ++ d :: inorder r

/-- The in-order traversal operation of `main` (main.c lines 1680-1689): it
collects the in-order sequence into `arr` (length `index = n`) and then runs
`for (i = 0; i <= index; i++)`, emitting a step of size `i + 1` with
`highlighted[i] = 1` only while `i < index`.  Note the loop bound `i <= index`:
the final iteration reads `arr[index]`, an uninitialized stack slot in C,
which this model reads as 0 via `getD`. -/
def inorder_traversal_op (t : Tree) : List Step :=
  let arr := inorder t
  let n := arr.length
  (List.range (n + 1)).map (fun i =>
    let hl0 := List.replicate MAX_SIZE (0 : Int)
    let hl := if i < n then hl0.set i 1 else hl0
    mkStep "INORDER_TRAVERSAL" arr (i + 1) (some hl) none
      "Inorder traversal of BST" "O(n)")

/-- The binary-search-tree invariant: every value in the left subtree is
smaller and every value in the right subtree is larger than the node. -/
def isBSTb : Tree → Bool
  | .nil => true
  | .node d l r =>
    ((preorder l).all fun x => decide (x < d)) &&
    ((preorder r).all fun x => decide (d < x)) &&
    isBSTb l && isBSTb r

/-- Number of nodes `insert_bst` visits while descending to `v` (counting the
node where the descent stops); each visited node emits one `INSERT_BST` step. -/
def pathLen : Tree → Int → Nat
  | .nil, _ => 0
  | .node d l r, v =>
    if v < d then pathLen l v + 1
    else if v > d then pathLen r v + 1
    else 1

/-- The demo BST built by `main` (main.c lines 1671-1678). -/
def insertVal (t : Tree) (v : Int) : Tree := (insert_bst t v).1

/-- The tree holding 50, 30, 70, 20, 40, 60, 80 inserted in that order. -/
def demoTree : Tree :=
  [(50 : Int), 30, 70, 20, 40, 60, 80].foldl insertVal .nil

/-! ### Stack (main.c lines 47-51, 611-650) -/

/-- `Stack` (main.c lines 48-51). -/
structure StackSt where
  arr : List Int
  top : Int
deriving DecidableEq

/-- The global stack's initial state (main.c line 64; global arrays are
zero-initialized in C). -/
def emptyStack : StackSt := { arr := List.replicate MAX_SIZE 0, top := -1 }

/-- `push` (main.c lines 611-625): a full stack (`top >= MAX_SIZE - 1`) is a
no-op with a printed notice and no step. -/
def push (s : StackSt) (data : Int) : StackSt × List Step :=
  if s.top ≥ (MAX_SIZE : Int) - 1 then (s, [])
  else
    let newTop := s.top + 1
    let arr2 := s.arr.set newTop.toNat data
    let hl := (List.replicate MAX_SIZE (0 : Int)).set newTop.toNat 1
    let ptr : List Int := [newTop, -1, -1, -1, -1, -1, -1, -1, -1, -1]
    let st := mkStep "PUSH" arr2 (newTop.toNat + 1) (some hl) (some ptr)
      "Element pushed to stack" "O(1)"
    ({ arr := arr2, top := newTop }, [st])

/-- `pop` (main.c lines 627-650): underflow (`top < 0`) is a no-op returning
-1 with no step; otherwise `POP_BEFORE` with the old top, then `POP_AFTER`
with the decremented top pointer and the same snapshot size `top + 1`
(the C size argument `stack.top + 1` is evaluated after the decrement and
then... the BEFORE step uses the old top, the AFTER step uses the old top as
well since `stack.top + 1` after `stack.top--` equals the old `top`). -/
def pop (s : StackSt) : StackSt × Int × List Step :=
  if s.top < 0 then (s, -1, [])
  else
    let t := s.top.toNat
    let data := s.arr.getD t 0
    let hl := (List.replicate MAX_SIZE (0 : Int)).set t 1
    let ptr : List Int := [s.top, -1, -1, -1, -1, -1, -1, -1, -1, -1]
    let stB := mkStep "POP_BEFORE" s.arr (t + 1) (some hl) (some ptr)
      "Element being popped" "O(1)"
    let newTop := s.top - 1
    let ptr2 : List Int := [newTop, -1, -1, -1, -1, -1, -1, -1, -1, -1]
    let stA := mkStep "POP_AFTER" s.arr t (some (List.replicate MAX_SIZE 0))
      (some ptr2) "Element popped from stack" "O(1)"
    ({ arr := s.arr, top := newTop }, data, [stB, stA])

/-- A sequence of stack operations, for interleaved runs. -/
inductive SOp where
  | push (v : Int)
  | pop
deriving DecidableEq

/-- Run a sequence of stack operations, collecting the values returned by the
`pop` calls in order (underflowing pops return the sentinel -1). -/
def runStack (s : StackSt) : List SOp → StackSt × List Int
  | [] => (s, [])
  | .push v :: ops => runStack (push s v).1 ops
  | .pop :: ops =>
    let r := pop s
    let r2 := runStack r.1 ops
    (r2.1, r.2.1 :: r2.2)

/-- A run is clean when no push overflows and no pop underflows. -/
def stackRunOk (s : StackSt) : List SOp → Bool
  | [] => true
  | .push v :: ops =>
    decide (s.top < (MAX_SIZE : Int) - 1) && stackRunOk (push s v).1 ops
  | .pop :: ops => decide (0 ≤ s.top) && stackRunOk (pop s).1 ops

/-- The values inserted by a stack run, in order. -/
def sInsertions : List SOp → List Int
  | [] => []
  | .push v :: ops => v :: sInsertions ops
  | .pop :: ops => sInsertions ops

/-- Push a whole list of values. -/
def pushList (s : StackSt) (vs : List Int) : StackSt :=
  vs.foldl (fun st v => (push st v).1) s

/-- Pop `k` times, collecting the returned values in order. -/
def popN (s : StackSt) : Nat → StackSt × List Int
  | 0 => (s, [])
  | k + 1 =>
    let r := pop s
    let r2 := popN r.1 k
    (r2.1, r.2.1 :: r2.2)

/-! ### Queue (main.c lines 53-57, 653-699) -/

/-- `Queue` (main.c lines 54-57). -/
structure QueueSt where
  arr : List Int
  front : Int
  rear : Int
deriving DecidableEq

/-- The global queue's initial state (main.c line 65). -/
def emptyQueue : QueueSt :=
  { arr := List.replicate MAX_SIZE 0, front := -1, rear := -1 }

/-- `enqueue` (main.c lines 653-668): overflow (`rear >= MAX_SIZE - 1`) is a
no-op with a notice and no step; the emitted step's data and highlights are
the `front..rear` window (`queue.arr + queue.front`). -/
def enqueue (q : QueueSt) (data : Int) : QueueSt × List Step :=
  if q.rear ≥ (MAX_SIZE : Int) - 1 then (q, [])
  else
    let front2 := if q.front = -1 then (0 : Int) else q.front
    let rear2 := q.rear + 1
    let arr2 := q.arr.set rear2.toNat data
    let hl := (List.replicate MAX_SIZE (0 : Int)).set rear2.toNat 1
    let ptr : List Int := [front2, rear2, -1, -1, -1, -1, -1, -1, -1, -1]
    let st := mkStep "ENQUEUE" (arr2.drop front2.toNat) (rear2 - front2 + 1).toNat
      (some (hl.drop front2.toNat)) (some ptr) "Element enqueued" "O(1)"
    ({ arr := arr2, front := front2, rear := rear2 }, [st])

/-- `dequeue` (main.c lines 670-699): underflow (`front == -1 || front > rear`)
is a no-op returning -1 with no step; otherwise `DEQUEUE_BEFORE` around the
old window, the front cursor advances, both cursors reset to -1 when the
queue empties, and `DEQUEUE_AFTER` shows the new window. -/
def dequeue (q : QueueSt) : QueueSt × Int × List Step :=
  if q.front = -1 ∨ q.front > q.rear then (q, -1, [])
  else
    let f := q.front.toNat
    let data := q.arr.getD f 0
    let hl := (List.replicate MAX_SIZE (0 : Int)).set f 1
    let ptr : List Int := [q.front, q.rear, -1, -1, -1, -1, -1, -1, -1, -1]
    let stB := mkStep "DEQUEUE_BEFORE" (q.arr.drop f) (q.rear - q.front + 1).toNat
      (some (hl.drop f)) (some ptr) "Element being dequeued" "O(1)"
    let front2 := q.front + 1
    let front3 := if front2 > q.rear then (-1 : Int) else front2
    let rear3 := if front2 > q.rear then (-1 : Int) else q.rear
    let ptr2 : List Int := [front3, rear3, -1, -1, -1, -1, -1, -1, -1, -1]
    let size2 := if front3 = -1 then 0 else (rear3 - front3 + 1).toNat
    let dta := if front3 = -1 then q.arr else q.arr.drop front3.toNat
    let stA := mkStep "DEQUEUE_AFTER" dta size2 (some (List.replicate MAX_SIZE 0))
      (some ptr2) "Element dequeued" "O(1)"
    ({ arr := q.arr, front := front3, rear := rear3 }, data, [stB, stA])

/-- A sequence of queue operations, for interleaved runs. -/
inductive QOp where
  | enq (v : Int)
  | deq
deriving DecidableEq

/-- Run a sequence of queue operations, collecting the values returned by the
`dequeue` calls in order. -/
def runQueue (q : QueueSt) : List QOp → QueueSt × List Int
  | [] => (q, [])
  | .enq v :: ops => runQueue (enqueue q v).1 ops
  | .deq :: ops =>
    let r := dequeue q
    let r2 := runQueue r.1 ops
    (r2.1, r.2.1 :: r2.2)

/-- A queue run is clean when no enqueue overflows and no dequeue underflows. -/
def queueRunOk (q : QueueSt) : List QOp → Bool
  | [] => true
  | .enq v :: ops =>
    decide (q.rear < (MAX_SIZE : Int) - 1) && queueRunOk (enqueue q v).1 ops
  | .deq :: ops =>
    decide (¬(q.front = -1 ∨ q.front > q.rear)) && queueRunOk (dequeue q).1 ops

/-- The values inserted by a queue run, in order. -/
def qInsertions : List QOp → List Int
  | [] => []
  | .enq v :: ops => v :: qInsertions ops
  | .deq :: ops => qInsertions ops

/-- The number of dequeue operations in a run. -/
def countDeq : List QOp → Nat
  | [] => 0
  | .enq _ :: ops => countDeq ops
  | .deq :: ops => countDeq ops + 1

/-- Abstraction relation between a concrete queue state and its logical
content: the content is the `front..rear` window of the storage, and an empty
content corresponds to both cursors at the -1 sentinel. -/
def QRepInv (q : QueueSt) (c : List Int) : Prop :=
  q.arr.length = MAX_SIZE ∧
  (if c = [] then q.front = -1 ∧ q.rear = -1
   else 0 ≤ q.front ∧ q.front ≤ q.rear ∧ q.rear < (MAX_SIZE : Int) ∧
     q.rear.toNat - q.front.toNat + 1 = c.length ∧
     ∀ i < c.length, q.arr.getD (q.front.toNat + i) 0 = c.getD i 0)

/-- Abstraction relation between a concrete stack state and its logical
content: the first `c.length` storage cells hold `c` and `top` is the index
of the last of them. -/
def SRep (s : StackSt) (c : List Int) : Prop :=
  s.arr.length = MAX_SIZE ∧ c.length ≤ MAX_SIZE ∧
  s.top = (c.length : Int) - 1 ∧
  ∀ i < c.length, s.arr.getD i 0 = c.getD i 0

/-! ### Proof-side auxiliary definitions -/

/-- The subarray `a[lo..hi]` as a list. -/
def seg (a : List Int) (lo hi : Nat) : List Int :=
  (a.drop lo).take (hi + 1 - lo)

/-- Structural rendition of the merge loop: take from the left while its head
is `≤` the right head, as the loop at main.c lines 1046-1106 does. -/
def mergeLists : List Int → List Int → List Int
  | [], ys => ys
  | x :: xs, [] => x :: xs
  | x :: xs, y :: ys =>
    if x ≤ y then x :: mergeLists xs (y :: ys)
    else y :: mergeLists (x :: xs) ys

/-- Write the values `vs` into `a` at consecutive positions starting at `k`. -/
def writeRun (a : List Int) (k : Nat) : List Int → List Int
  | [] => a
  | v :: vs => writeRun (a.set k v) (k + 1) vs


/-! ## Basic lemmas about `getD`, `set` and `listSwap` -/

theorem getD_set_self (a : List Int) (i : Nat) (v : Int) (h : i < a.length) :
    (a.set i v).getD i 0 = v := by
  rw [List.getD_eq_getElem _ _ (by simpa using h)]
  exact List.getElem_set_self _

theorem getD_set_ne (a : List Int) (i k : Nat) (v : Int) (h : i ≠ k) :
    (a.set i v).getD k 0 = a.getD k 0 := by
  by_cases hk : k < a.length
  · rw [List.getD_eq_getElem _ _ (by simpa using hk), List.getD_eq_getElem _ _ hk]
    exact List.getElem_set_ne h _
  · rw [List.getD_eq_default _ _ (by simpa using Nat.le_of_not_lt hk),
      List.getD_eq_default _ _ (Nat.le_of_not_lt hk)]

theorem length_listSwap (a : List Int) (i j : Nat) :
    (listSwap a i j).length = a.length := by
  simp [listSwap]

theorem getD_listSwap_fst (a : List Int) (i j : Nat) (hj : j < a.length) :
    (listSwap a i j).getD j 0 = a.getD i 0 := by
  simp only [listSwap]
  exact getD_set_self _ _ _ (by simpa using hj)

theorem getD_listSwap_snd (a : List Int) (i j : Nat) (hi : i < a.length)
    (hij : i ≠ j) : (listSwap a i j).getD i 0 = a.getD j 0 := by
  simp only [listSwap]
  rw [getD_set_ne _ _ _ _ (Ne.symm hij)]
  exact getD_set_self _ _ _ hi

theorem getD_listSwap_other (a : List Int) (i j k : Nat) (h1 : k ≠ i)
    (h2 : k ≠ j) : (listSwap a i j).getD k 0 = a.getD k 0 := by
  simp only [listSwap]
  rw [getD_set_ne _ _ _ _ (Ne.symm h2), getD_set_ne _ _ _ _ (Ne.symm h1)]

theorem set_set_perm : ∀ (a : List Int) (i j : Nat), i < a.length →
    j < a.length → ((a.set i (a.getD j 0)).set j (a.getD i 0)).Perm a := by
  intro a
  induction a with
  | nil => intro i j hi _; simp at hi
  | cons h t ih =>
    intro i j hi hj
    match i, j with
    | 0, 0 => simp
    | 0, k + 1 =>
      have hk : k < t.length := by simpa using hj
      simp only [List.getD_cons_zero, List.getD_cons_succ, List.set_cons_zero,
        List.set_cons_succ]
      have hset : t.set k h = t.take k ++ h :: t.drop (k + 1) := by
        rw [List.set_eq_take_append_cons_drop, if_pos hk]
      have hgd : t.getD k 0 = t[k] := List.getD_eq_getElem t 0 hk
      have ht : t = t.take k ++ t[k] :: t.drop (k + 1) := by
        conv_lhs => rw [← List.take_append_drop k t, List.drop_eq_getElem_cons hk]
      rw [hset, hgd]
      calc (t[k] :: (t.take k ++ h :: t.drop (k + 1))).Perm
            (t[k] :: (h :: (t.take k ++ t.drop (k + 1)))) :=
        List.Perm.cons _ List.perm_middle
      _ = (t[k] :: h :: (t.take k ++ t.drop (k + 1))) := rfl
      _ |>.Perm (h :: t[k] :: (t.take k ++ t.drop (k + 1))) := List.Perm.swap _ _ _
      _ |>.Perm (h :: (t.take k ++ t[k] :: t.drop (k + 1))) :=
        List.Perm.cons _ List.perm_middle.symm
      _ = (h :: t) := by rw [← ht]
    | m + 1, 0 =>
      have hm : m < t.length := by simpa using hi
      simp only [List.getD_cons_zero, List.getD_cons_succ, List.set_cons_zero,
        List.set_cons_succ]
      have hset : t.set m h = t.take m ++ h :: t.drop (m + 1) := by
        rw [List.set_eq_take_append_cons_drop, if_pos hm]
      have hgd : t.getD m 0 = t[m] := List.getD_eq_getElem t 0 hm
      have ht : t = t.take m ++ t[m] :: t.drop (m + 1) := by
        conv_lhs => rw [← List.take_append_drop m t, List.drop_eq_getElem_cons hm]
      rw [hset, hgd]
      calc (t[m] :: (t.take m ++ h :: t.drop (m + 1))).Perm
            (t[m] :: (h :: (t.take m ++ t.drop (m + 1)))) :=
        List.Perm.cons _ List.perm_middle
      _ = (t[m] :: h :: (t.take m ++ t.drop (m + 1))) := rfl
      _ |>.Perm (h :: t[m] :: (t.take m ++ t.drop (m + 1))) := List.Perm.swap _ _ _
      _ |>.Perm (h :: (t.take m ++ t[m] :: t.drop (m + 1))) :=
        List.Perm.cons _ List.perm_middle.symm
      _ = (h :: t) := by rw [← ht]
    | m + 1, k + 1 =>
      simp only [List.getD_cons_succ, List.set_cons_succ]
      exact List.Perm.cons _ (ih m k (by simpa using hi) (by simpa using hj))

theorem listSwap_perm (a : List Int) (i j : Nat) (hi : i < a.length)
    (hj : j < a.length) : (listSwap a i j).Perm a := by
  simpa [listSwap] using set_set_perm a i j hi hj

/-! ## Lemmas about `seg` -/

theorem length_seg (a : List Int) (lo hi : Nat) :
    (seg a lo hi).length = min (hi + 1 - lo) (a.length - lo) := by
  simp [seg]

theorem getElem_seg (a : List Int) (lo hi i : Nat) (h : i < (seg a lo hi).length) :
    (seg a lo hi)[i] = a.getD (lo + i) 0 := by
  have h1 : i < (hi + 1 - lo) := by
    have := length_seg a lo hi; omega
  have h2 : lo + i < a.length := by
    have := length_seg a lo hi
    have : i < a.length - lo := by omega
    omega
  rw [List.getD_eq_getElem _ _ h2]
  simp only [seg]
  rw [List.getElem_take, List.getElem_drop]

theorem seg_decomp (a : List Int) (lo hi : Nat) (h : lo ≤ hi + 1) :
    a = a.take lo ++ seg a lo hi ++ a.drop (hi + 1) := by
  have h1 : (a.drop lo).drop (hi + 1 - lo) = a.drop (hi + 1) := by
    rw [List.drop_drop]
    congr 1
    omega
  calc a = a.take lo ++ a.drop lo := (List.take_append_drop lo a).symm
    _ = a.take lo ++ ((a.drop lo).take (hi + 1 - lo) ++ (a.drop lo).drop (hi + 1 - lo)) := by
        rw [List.take_append_drop (hi + 1 - lo) (a.drop lo)]
    _ = a.take lo ++ seg a lo hi ++ a.drop (hi + 1) := by
        rw [h1, seg, List.append_assoc]

theorem take_eq_of_getD_eq (a b : List Int) (lo : Nat) (hlen : a.length = b.length)
    (h : ∀ k, k < lo → a.getD k 0 = b.getD k 0) : a.take lo = b.take lo := by
  apply List.ext_getElem
  · simp [hlen]
  · intro n h1 h2
    have hn : n < a.length := by simp at h1; omega
    have hn2 : n < b.length := by rwa [hlen] at hn
    have hnlo : n < lo := by simp at h1; omega
    rw [List.getElem_take, List.getElem_take]
    rw [← List.getD_eq_getElem a 0 hn, ← List.getD_eq_getElem b 0 hn2]
    exact h n hnlo

theorem drop_eq_of_getD_eq (a b : List Int) (m : Nat) (hlen : a.length = b.length)
    (h : ∀ k, m ≤ k → a.getD k 0 = b.getD k 0) : a.drop m = b.drop m := by
  apply List.ext_getElem
  · simp [hlen]
  · intro n h1 h2
    have hn : m + n < a.length := by simp at h1; omega
    have hn2 : m + n < b.length := by rwa [hlen] at hn
    rw [List.getElem_drop, List.getElem_drop]
    rw [← List.getD_eq_getElem a 0 hn, ← List.getD_eq_getElem b 0 hn2]
    exact h (m + n) (Nat.le_add_right _ _)

/-- If a permutation leaves everything outside `[lo, hi]` unchanged
(position-wise), then the `[lo, hi]` segments are themselves permutations of
one another. -/
theorem seg_perm_of_perm_outside (a b : List Int) (lo hi : Nat)
    (hlen : a.length = b.length) (hperm : a.Perm b)
    (hout : ∀ k, k < lo ∨ hi < k → a.getD k 0 = b.getD k 0) :
    (seg a lo hi).Perm (seg b lo hi) := by
  by_cases hlo : lo ≤ hi + 1
  case neg =>
    have h0 : hi + 1 - lo = 0 := by omega
    simp [seg, h0]
  have hA := seg_decomp a lo hi hlo
  have hB := seg_decomp b lo hi hlo
  have ht : a.take lo = b.take lo :=
    take_eq_of_getD_eq a b lo hlen (fun k hk => hout k (Or.inl hk))
  have hd : a.drop (hi + 1) = b.drop (hi + 1) :=
    drop_eq_of_getD_eq a b (hi + 1) hlen (fun k hk => hout k (Or.inr (by omega)))
  have hm : (↑(seg a lo hi) : Multiset Int) = ↑(seg b lo hi) := by
    have h1 : (↑a : Multiset Int) = ↑b := Multiset.coe_eq_coe.mpr hperm
    rw [hA, hB, ht, hd] at h1
    rw [← Multiset.coe_add, ← Multiset.coe_add, ← Multiset.coe_add,
      ← Multiset.coe_add] at h1
    exact add_left_cancel (add_right_cancel h1)
  exact Multiset.coe_eq_coe.mp hm

theorem getD_mem_seg (a : List Int) (lo hi p : Nat) (h1 : lo ≤ p) (h2 : p ≤ hi)
    (h3 : p < a.length) : a.getD p 0 ∈ seg a lo hi := by
  rw [List.mem_iff_getElem]
  refine ⟨p - lo, ?_, ?_⟩
  · rw [length_seg]; omega
  · rw [getElem_seg]
    congr 1
    omega

theorem mem_seg_imp (a : List Int) (lo hi : Nat) (x : Int)
    (h : x ∈ seg a lo hi) :
    ∃ p, lo ≤ p ∧ p ≤ hi ∧ p < a.length ∧ a.getD p 0 = x := by
  rw [List.mem_iff_getElem] at h
  obtain ⟨n, hn, hx⟩ := h
  have hl := length_seg a lo hi
  refine ⟨lo + n, by omega, by omega, by omega, ?_⟩
  rw [← getElem_seg a lo hi n hn]
  exact hx

/-! ## Trace-buffer lemmas -/

/-- Closed form of folding `add_step`: the buffer receives exactly the steps
that fit under `MAX_STEPS`, in order; the rest are dropped. -/
theorem foldl_add_step (ss : List Step) : ∀ buf : List Step,
    List.foldl add_step buf ss = buf ++ ss.take (MAX_STEPS - buf.length) := by
  induction ss with
  | nil => intro buf; simp
  | cons s ss ih =>
    intro buf
    by_cases h : MAX_STEPS ≤ buf.length
    · have h0 : MAX_STEPS - buf.length = 0 := Nat.sub_eq_zero_of_le h
      have h0' : MAX_STEPS - (buf ++ [s]).length = 0 := by simp; omega
      simp only [List.foldl_cons, add_step, if_pos h, ih buf, h0]
      simp
    · have hlt : buf.length < MAX_STEPS := Nat.lt_of_not_le h
      have hsplit : MAX_STEPS - buf.length = (MAX_STEPS - (buf.length + 1)) + 1 := by
        omega
      simp only [List.foldl_cons, add_step, if_neg h, ih (buf ++ [s])]
      rw [hsplit, List.take_succ_cons]
      simp

/-- Claim C1: every Step that `add_step` appends to the trace buffer has a
highlighted sequence of the same length as its data sequence, both bounded by
the stored size field, and a pointers sequence of exactly 10 entries in which
every slot the caller did not supply is the sentinel -1. -/
theorem c1_step_well_formed (action : String) (data : List Int) (size : Nat)
    (hl : Option (List Int)) (ptrs : Option (List Int)) (desc cx : String) :
    (mkStep action data size hl ptrs desc cx).highlighted.length
        = (mkStep action data size hl ptrs desc cx).data.length ∧
    (mkStep action data size hl ptrs desc cx).data.length
        ≤ (mkStep action data size hl ptrs desc cx).size ∧
    (mkStep action data size hl ptrs desc cx).pointers.length = 10 ∧
    (ptrs = none →
      ∀ x ∈ (mkStep action data size hl ptrs desc cx).pointers, x = -1) := by
  refine ⟨by simp [mkStep], ?_, by simp [mkStep], ?_⟩
  · simp only [mkStep, List.length_map, List.length_range]
    exact min_le_left _ _
  · rintro rfl x hx
    simp only [mkStep, List.mem_map, List.mem_range] at hx
    obtain ⟨i, _, hi⟩ := hx
    exact hi.symm

/-- Witness for C1 at a concrete step with a null pointers argument. -/
theorem c1_step_well_formed_witness :
    (mkStep "PUSH" [1, 2] 2 (some [0, 1]) none "d" "c").pointers.length = 10 ∧
    ∀ x ∈ (mkStep "PUSH" [1, 2] 2 (some [0, 1]) none "d" "c").pointers, x = -1 :=
  ⟨(c1_step_well_formed "PUSH" [1, 2] 2 (some [0, 1]) none "d" "c").2.2.1,
   (c1_step_well_formed "PUSH" [1, 2] 2 (some [0, 1]) none "d" "c").2.2.2 rfl⟩

/-- Claim C3: the trace buffer never exceeds `MAX_STEPS` (1000) steps; once
it is full every further append returns the buffer unchanged (silently — no
error value exists), and in general the buffer after any sequence of appends
is exactly the prefix of the attempted steps that fits.  The appending is the
only interaction an operation has with the buffer, so a full buffer does not
affect the operation itself. -/
theorem c3_trace_capacity :
    (∀ (buf : List Step) (s : Step), MAX_STEPS ≤ buf.length →
      add_step buf s = buf) ∧
    (∀ (buf : List Step) (ss : List Step),
      List.foldl add_step buf ss = buf ++ ss.take (MAX_STEPS - buf.length)) ∧
    (∀ ss : List Step, (List.foldl add_step [] ss).length ≤ MAX_STEPS) := by
  refine ⟨?_, ?_, ?_⟩
  · intro buf s h
    simp [add_step, if_pos h]
  · intro buf ss
    exact foldl_add_step ss buf
  · intro ss
    rw [foldl_add_step ss []]
    simp

/-- Witness for C3: appending to a buffer that already holds 1000 steps
leaves it unchanged. -/
theorem c3_trace_capacity_witness :
    add_step (List.replicate MAX_STEPS (mkStep "A" [] 0 none none "x" "y"))
        (mkStep "B" [] 0 none none "x" "y")
      = List.replicate MAX_STEPS (mkStep "A" [] 0 none none "x" "y") :=
  c3_trace_capacity.1 _ _ (by simp)

/-! ## Claim C5: the bubble-sort example -/

/-- Counterexample to claim C5 as stated: bubble-sorting `[5, 3, 8, 1]` emits
4 `BUBBLE_SWAP` steps (the input has 4 inversions), not 3. -/
theorem c5_counterexample :
    (bubble_sort [5, 3, 8, 1] 4).2.countP (fun s => s.action == "BUBBLE_SWAP") = 4 ∧
    ¬ (bubble_sort [5, 3, 8, 1] 4).2.countP (fun s => s.action == "BUBBLE_SWAP") = 3 := by
  constructor
  · decide
  · decide

/-- Claim C5 (amended): bubble-sorting `[5, 3, 8, 1]` terminates with final
data `[1, 3, 5, 8]`, emits exactly 4 `BUBBLE_SWAP` steps, and emits exactly
one `BUBBLE_COMPLETE` step, which is the last step and has an all-zero
highlighted sequence. -/
theorem c5_bubble_example :
    (bubble_sort [5, 3, 8, 1] 4).1 = [1, 3, 5, 8] ∧
    (bubble_sort [5, 3, 8, 1] 4).2.countP (fun s => s.action == "BUBBLE_SWAP") = 4 ∧
    (bubble_sort [5, 3, 8, 1] 4).2.countP (fun s => s.action == "BUBBLE_COMPLETE") = 1 ∧
    ((bubble_sort [5, 3, 8, 1] 4).2.getLast?).map (fun s => s.action)
      = some "BUBBLE_COMPLETE" ∧
    ((bubble_sort [5, 3, 8, 1] 4).2.getLast?).map (fun s => s.data)
      = some [1, 3, 5, 8] ∧
    ((bubble_sort [5, 3, 8, 1] 4).2.getLast?).map (fun s => s.highlighted)
      = some [0, 0, 0, 0] := by
  refine ⟨by decide, by decide, by decide, by decide, by decide, by decide⟩

/-! ## Claim C8: pop underflow and the two-step pop -/

/-- Claim C8: popping an empty stack (`top < 0`) is a no-op that emits no
step, leaves the stack unchanged and returns the sentinel -1; popping a
non-empty stack emits exactly the two steps `POP_BEFORE` and `POP_AFTER` and
returns the element stored at the top index. -/
theorem c8_pop (s : StackSt) :
    (s.top < 0 → pop s = (s, -1, [])) ∧
    (0 ≤ s.top →
      ((pop s).2.2.map (fun st => st.action)) = ["POP_BEFORE", "POP_AFTER"] ∧
      (pop s).2.1 = s.arr.getD s.top.toNat 0 ∧
      (pop s).1 = { arr := s.arr, top := s.top - 1 }) := by
  constructor
  · intro h
    simp [pop, if_pos h]
  · intro h
    have h2 : ¬ s.top < 0 := not_lt.mpr h
    refine ⟨?_, ?_, ?_⟩ <;> simp [pop, if_neg h2, mkStep]

/-- Witness for C8: pop on the empty stack, and pop on a one-element stack. -/
theorem c8_pop_witness :
    pop emptyStack = (emptyStack, -1, []) ∧
    (pop { arr := List.replicate MAX_SIZE 0, top := 0 }).2.1
      = (List.replicate MAX_SIZE (0 : Int)).getD 0 0 :=
  ⟨(c8_pop emptyStack).1 (by decide),
   ((c8_pop { arr := List.replicate MAX_SIZE 0, top := 0 }).2 (by decide)).2.1⟩

/-! ## Claim C4: BST insert on duplicates -/

/-- On a BST that already contains `v`, `insert_bst` returns the tree
unchanged but emits one `INSERT_BST` step per node on the descent path. -/
theorem insert_bst_dup (t : Tree) (v : Int) (hb : isBSTb t = true)
    (hm : v ∈ preorder t) :
    (insert_bst t v).1 = t ∧ (insert_bst t v).2.length = pathLen t v := by
  induction t with
  | nil => simp [preorder] at hm
  | node d l r ihl ihr =>
    simp only [isBSTb, Bool.and_eq_true, List.all_eq_true, decide_eq_true_eq] at hb
    obtain ⟨⟨⟨hl, hr⟩, hbl⟩, hbr⟩ := hb
    rcases lt_trichotomy v d with hv | hv | hv
    · have hvl : v ∈ preorder l := by
        simp only [preorder, List.mem_cons, List.mem_append] at hm
        rcases hm with h | h | h
        · omega
        · exact h
        · exact absurd (hr v h) (by omega)
      obtain ⟨h1, h2⟩ := ihl hbl hvl
      constructor
      · simp [insert_bst, hv, h1]
      · simp [insert_bst, hv, h2, pathLen]
    · have h1 : ¬ v < d := by omega
      have h2 : ¬ v > d := by omega
      constructor
      · simp [insert_bst, h1, h2]
      · simp [insert_bst, h1, h2, pathLen]
    · have h1 : ¬ v < d := by omega
      have hvr : v ∈ preorder r := by
        simp only [preorder, List.mem_cons, List.mem_append] at hm
        rcases hm with h | h | h
        · omega
        · exact absurd (hl v h) (by omega)
        · exact h
      obtain ⟨h3, h4⟩ := ihr hbr hvr
      constructor
      · simp [insert_bst, h1, hv, h3]
      · simp [insert_bst, h1, hv, h4, pathLen]

/-- Counterexample to claim C4 as stated: inserting 5 into the BST that is the
single node 5 leaves the tree unchanged but emits 1 step, not 0. -/
theorem c4_counterexample :
    isBSTb (Tree.node 5 .nil .nil) = true ∧
    (5 : Int) ∈ preorder (Tree.node 5 .nil .nil) ∧
    (insert_bst (Tree.node 5 .nil .nil) 5).1 = Tree.node 5 .nil .nil ∧
    (insert_bst (Tree.node 5 .nil .nil) 5).2.length = 1 ∧
    ¬ (insert_bst (Tree.node 5 .nil .nil) 5).2.length = 0 := by
  decide

/-- Claim C4 (amended): for every BST and every value already present in it,
insert leaves the tree structurally unchanged (same pre-order flatten and
node count — in fact the identical tree), and emits one Step per node on the
descent path to the duplicate (not zero). -/
theorem c4_insert_duplicate (t : Tree) (v : Int) (hb : isBSTb t = true)
    (hm : v ∈ preorder t) :
    preorder (insert_bst t v).1 = preorder t ∧
    treeCount (insert_bst t v).1 = treeCount t ∧
    (insert_bst t v).1 = t ∧
    (insert_bst t v).2.length = pathLen t v := by
  obtain ⟨h1, h2⟩ := insert_bst_dup t v hb hm
  exact ⟨by rw [h1], by rw [h1], h1, h2⟩

/-- Witness for C4 (amended) on the demo tree with duplicate 40. -/
theorem c4_insert_duplicate_witness :
    preorder (insert_bst demoTree 40).1 = preorder demoTree ∧
    treeCount (insert_bst demoTree 40).1 = treeCount demoTree ∧
    (insert_bst demoTree 40).1 = demoTree ∧
    (insert_bst demoTree 40).2.length = pathLen demoTree 40 :=
  c4_insert_duplicate demoTree 40 (by decide) (by decide)

/-! ## Claim C10: BST delete of an absent value -/

/-- Deleting a value absent from the tree returns the identical tree. -/
theorem delete_bst_absent (t : Tree) (v : Int) (hm : v ∉ preorder t) :
    (delete_bst t v).1 = t := by
  induction t with
  | nil => simp [delete_bst]
  | node d l r ihl ihr =>
    simp only [preorder, List.mem_cons, List.mem_append] at hm
    push_neg at hm
    obtain ⟨hvd, hml, hmr⟩ := hm
    rcases lt_trichotomy v d with hv | hv | hv
    · simp [delete_bst, hv, ihl hml]
    · exact absurd hv hvd
    · have h1 : ¬ v < d := by omega
      simp [delete_bst, h1, hv, ihr hmr]

/-- Claim C10: deleting a value absent from a non-empty tree leaves the
pre-order flatten (indeed the whole tree) unchanged, while steps are still
emitted along the search path. -/
theorem c10_delete_absent (t : Tree) (v : Int) (hne : t ≠ Tree.nil)
    (hm : v ∉ preorder t) :
    preorder (delete_bst t v).1 = preorder t ∧
    (delete_bst t v).1 = t ∧
    (delete_bst t v).2 ≠ [] := by
  have h1 := delete_bst_absent t v hm
  refine ⟨by rw [h1], h1, ?_⟩
  cases t with
  | nil => exact absurd rfl hne
  | node d l r =>
    rcases lt_trichotomy v d with hv | hv | hv
    · simp [delete_bst, hv]
    · exfalso
      exact hm (by simp [preorder, hv])
    · have h2 : ¬ v < d := by omega
      simp [delete_bst, h2, hv]

/-- Witness for C10: deleting 7 from the single-node tree 5. -/
theorem c10_delete_absent_witness :
    preorder (delete_bst (Tree.node 5 .nil .nil) 7).1
      = preorder (Tree.node 5 .nil .nil) ∧
    (delete_bst (Tree.node 5 .nil .nil) 7).1 = Tree.node 5 .nil .nil ∧
    (delete_bst (Tree.node 5 .nil .nil) 7).2 ≠ [] :=
  c10_delete_absent (Tree.node 5 .nil .nil) 7 (by decide) (by decide)

/-! ## Claim C9: the in-order traversal operation -/

/-- Evaluation of the in-order traversal operation at the demo tree of
`main`: the tree has 7 nodes, yet the loop `for (i = 0; i <= index; i++)`
emits 8 steps, the last of which has a data sequence of length 8 (its final
entry reads the uninitialized `arr[index]`), contradicting the claimed
"n Steps with data lengths 1 through n". -/
theorem c9_inorder_traversal_offbyone :
    treeCount demoTree = 7 ∧
    (inorder_traversal_op demoTree).length = 8 ∧
    ((inorder_traversal_op demoTree).getLast?).map (fun s => s.data.length)
      = some 8 ∧
    ¬ (inorder_traversal_op demoTree).length = 7 := by
  decide

/-! ## Claim C7: the queue example and the empty-reset -/

/-- Claim C7: enqueuing 10, 20, 30 into the empty queue and dequeuing once
returns 10, and the `DEQUEUE_AFTER` step shows the window `[20, 30]` with
cursors front = 1 and rear = 2; in general, a dequeue that empties the queue
(front = rear ≥ 0) resets both cursors to the sentinel (-1, -1) in its final
step. -/
theorem c7_queue :
    (dequeue (enqueue (enqueue (enqueue emptyQueue 10).1 20).1 30).1).2.1 = 10 ∧
    ((dequeue (enqueue (enqueue (enqueue emptyQueue 10).1 20).1 30).1).2.2.getLast?).map
        (fun s => s.data) = some [20, 30] ∧
    ((dequeue (enqueue (enqueue (enqueue emptyQueue 10).1 20).1 30).1).2.2.getLast?).map
        (fun s => (s.pointers.getD 0 0, s.pointers.getD 1 0)) = some (1, 2) ∧
    (∀ q : QueueSt, 0 ≤ q.front → q.front = q.rear →
      ((dequeue q).2.2.getLast?).map
        (fun s => (s.pointers.getD 0 0, s.pointers.getD 1 0)) = some (-1, -1)) := by
  refine ⟨by decide, by decide, by decide, ?_⟩
  intro q h1 h2
  have hcond : ¬ (q.front = -1 ∨ q.front > q.rear) := by omega
  have hgt : q.front + 1 > q.rear := by omega
  simp [dequeue, hcond, hgt, mkStep]

/-- Witness for C7's general part: dequeuing a one-element queue resets both
cursors to -1. -/
theorem c7_queue_witness :
    ((dequeue { arr := List.replicate MAX_SIZE 0, front := 0, rear := 0 }).2.2.getLast?).map
      (fun s => (s.pointers.getD 0 0, s.pointers.getD 1 0)) = some (-1, -1) :=
  c7_queue.2.2.2 { arr := List.replicate MAX_SIZE 0, front := 0, rear := 0 }
    (by decide) (by decide)

/-! ## Claim C6: LIFO / FIFO behavior -/

theorem push_SRep (s : StackSt) (c : List Int) (v : Int) (h : SRep s c)
    (hlen : c.length < MAX_SIZE) : SRep (push s v).1 (c ++ [v]) := by
  obtain ⟨ha, hc, ht, hg⟩ := h
  have hov : ¬ s.top ≥ (MAX_SIZE : Int) - 1 := by omega
  have htop : (s.top + 1).toNat = c.length := by omega
  refine ⟨?_, ?_, ?_, ?_⟩
  · simp [push, hov, htop, ha]
  · simp; omega
  · simp [push, hov]; omega
  · intro i hi
    simp only [push, if_neg hov, htop]
    simp only [List.length_append, List.length_cons, List.length_nil] at hi
    rcases Nat.lt_or_ge i c.length with hlt | hge
    · rw [getD_set_ne _ _ _ _ (by omega), hg i hlt,
        List.getD_append _ _ _ _ hlt]
    · have hieq : i = c.length := by omega
      subst hieq
      rw [getD_set_self _ _ _ (by omega)]
      rw [List.getD_eq_getElem _ _ (by simp)]
      exact (List.getElem_concat_length c v _ rfl _).symm

theorem pushList_SRep (vs : List Int) : ∀ (s : StackSt) (c : List Int),
    SRep s c → c.length + vs.length ≤ MAX_SIZE →
    SRep (pushList s vs) (c ++ vs) := by
  induction vs with
  | nil => intro s c h _; simpa [pushList] using h
  | cons v vs ih =>
    intro s c h hlen
    have h1 : SRep (push s v).1 (c ++ [v]) :=
      push_SRep s c v h (by simp at hlen; omega)
    have h2 := ih (push s v).1 (c ++ [v]) h1 (by simp at hlen ⊢; omega)
    simpa [pushList, List.append_assoc] using h2

theorem pop_SRep (s : StackSt) (c : List Int) (h : SRep s c) (hne : c ≠ []) :
    (pop s).2.1 = c.getD (c.length - 1) 0 ∧ SRep (pop s).1 c.dropLast := by
  obtain ⟨ha, hc, ht, hg⟩ := h
  have hpos : 0 < c.length := List.length_pos.mpr hne
  have hun : ¬ s.top < 0 := by omega
  have htop : s.top.toNat = c.length - 1 := by omega
  have hdl : c.dropLast.length = c.length - 1 := by simp
  constructor
  · simp only [pop, if_neg hun, htop]
    exact hg (c.length - 1) (by omega)
  · refine ⟨by simp [pop, hun, ha], by simp [hdl]; omega, ?_, ?_⟩
    · simp only [pop, if_neg hun, hdl]
      omega
    · intro i hi
      rw [hdl] at hi
      simp only [pop, if_neg hun]
      have hb1 : i < c.length := by omega
      have hb2 : i < (List.take (c.length - 1) c).length := by
        rw [List.length_take]; omega
      rw [hg i (by omega), List.dropLast_eq_take,
        List.getD_eq_getElem _ _ hb1, List.getD_eq_getElem _ _ hb2]
      exact (List.getElem_take _).symm

theorem popN_SRep : ∀ (k : Nat) (s : StackSt) (c : List Int), SRep s c →
    k ≤ c.length → (popN s k).2 = c.reverse.take k := by
  intro k
  induction k with
  | zero => intro s c _ _; simp [popN]
  | succ k ih =>
    intro s c h hk
    have hne : c ≠ [] := by
      intro hc; subst hc; simp at hk
    obtain ⟨h1, h2⟩ := pop_SRep s c h hne
    have h3 := ih (pop s).1 c.dropLast h2 (by simp; omega)
    have hx : c = c.dropLast ++ [c.getLast hne] :=
      (List.dropLast_append_getLast hne).symm
    have hrev : c.reverse = c.getLast hne :: c.dropLast.reverse := by
      conv_lhs => rw [hx]
      rw [List.reverse_concat]
    have hval : c.getD (c.length - 1) 0 = c.getLast hne := by
      rw [List.getD_eq_getElem _ _ (by omega), List.getLast_eq_getElem]
    simp only [popN, h3, h1, hval, hrev, List.take_succ_cons]

theorem enqueue_front (q : QueueSt) (v : Int)
    (hov : ¬ q.rear ≥ (MAX_SIZE : Int) - 1) :
    (enqueue q v).1.front = if q.front = -1 then 0 else q.front := by
  simp only [enqueue, if_neg hov]

theorem enqueue_rear (q : QueueSt) (v : Int)
    (hov : ¬ q.rear ≥ (MAX_SIZE : Int) - 1) :
    (enqueue q v).1.rear = q.rear + 1 := by
  simp only [enqueue, if_neg hov]

theorem enqueue_arr (q : QueueSt) (v : Int)
    (hov : ¬ q.rear ≥ (MAX_SIZE : Int) - 1) :
    (enqueue q v).1.arr = q.arr.set (q.rear + 1).toNat v := by
  simp only [enqueue, if_neg hov]

theorem enqueue_QRep (q : QueueSt) (c : List Int) (v : Int) (h : QRepInv q c)
    (hok : q.rear < (MAX_SIZE : Int) - 1) :
    QRepInv (enqueue q v).1 (c ++ [v]) := by
  obtain ⟨ha, hw⟩ := h
  have hms : MAX_SIZE = 100 := rfl
  have hov : ¬ q.rear ≥ (MAX_SIZE : Int) - 1 := by omega
  have hF := enqueue_front q v hov
  have hR := enqueue_rear q v hov
  have hA := enqueue_arr q v hov
  have hane : (c ++ [v] : List Int) ≠ [] := by simp
  refine ⟨by rw [hA, List.length_set, ha], ?_⟩
  rw [if_neg hane]
  by_cases hc : c = []
  · subst hc
    rw [if_pos rfl] at hw
    obtain ⟨hf, hr⟩ := hw
    rw [if_pos hf] at hF
    refine ⟨by omega, by omega, by omega, ?_, ?_⟩
    · rw [hF, hR, hr]
      simp
    · intro i hi
      simp only [List.nil_append, List.length_cons, List.length_nil] at hi
      have hi0 : i = 0 := by omega
      subst hi0
      rw [hA, hF, hr]
      have h00 : ((-1 : Int) + 1).toNat = 0 := by omega
      rw [h00]
      simp only [Int.toNat_zero, Nat.add_zero]
      rw [getD_set_self _ _ _ (by omega)]
      simp
  · rw [if_neg hc] at hw
    obtain ⟨hf0, hfr, hr, hwin, hg⟩ := hw
    have hfne : ¬ q.front = -1 := by omega
    rw [if_neg hfne] at hF
    refine ⟨by omega, by omega, by omega, ?_, ?_⟩
    · rw [hF, hR]
      simp only [List.length_append, List.length_cons, List.length_nil]
      omega
    · intro i hi
      simp only [List.length_append, List.length_cons, List.length_nil] at hi
      rw [hA, hF]
      have hr1 : (q.rear + 1).toNat = q.rear.toNat + 1 := by omega
      rcases Nat.lt_or_ge i c.length with hlt | hge
      · rw [hr1, getD_set_ne _ _ _ _ (by omega), hg i hlt,
          List.getD_append _ _ _ _ hlt]
      · have hieq : i = c.length := by omega
        subst hieq
        have hpos : q.front.toNat + c.length = q.rear.toNat + 1 := by omega
        rw [hr1, hpos, getD_set_self _ _ _ (by omega)]
        rw [List.getD_eq_getElem _ _ (by simp)]
        exact (List.getElem_concat_length c v _ rfl _).symm

theorem dequeue_front (q : QueueSt)
    (hok : ¬ (q.front = -1 ∨ q.front > q.rear)) :
    (dequeue q).1.front = if q.front + 1 > q.rear then -1 else q.front + 1 := by
  simp only [dequeue, if_neg hok]

theorem dequeue_rear (q : QueueSt)
    (hok : ¬ (q.front = -1 ∨ q.front > q.rear)) :
    (dequeue q).1.rear = if q.front + 1 > q.rear then -1 else q.rear := by
  simp only [dequeue, if_neg hok]

theorem dequeue_arr (q : QueueSt)
    (hok : ¬ (q.front = -1 ∨ q.front > q.rear)) :
    (dequeue q).1.arr = q.arr := by
  simp only [dequeue, if_neg hok]

theorem dequeue_val (q : QueueSt)
    (hok : ¬ (q.front = -1 ∨ q.front > q.rear)) :
    (dequeue q).2.1 = q.arr.getD q.front.toNat 0 := by
  simp only [dequeue, if_neg hok]

theorem dequeue_QRep (q : QueueSt) (c : List Int) (h : QRepInv q c)
    (hne : c ≠ []) :
    (dequeue q).2.1 = c.getD 0 0 ∧ QRepInv (dequeue q).1 c.tail := by
  obtain ⟨ha, hw⟩ := h
  rw [if_neg hne] at hw
  obtain ⟨hf0, hfr, hr, hwin, hg⟩ := hw
  have hpos : 0 < c.length := List.length_pos.mpr hne
  have hun : ¬ (q.front = -1 ∨ q.front > q.rear) := by omega
  have hF := dequeue_front q hun
  have hR := dequeue_rear q hun
  have hA := dequeue_arr q hun
  have hV := dequeue_val q hun
  constructor
  · rw [hV]
    simpa using hg 0 hpos
  · obtain ⟨hd, t, rfl⟩ := List.exists_cons_of_ne_nil hne
    simp only [List.tail_cons]
    by_cases hlast : q.front + 1 > q.rear
    · rw [if_pos hlast] at hF hR
      have hlen1 : (hd :: t).length = 1 := by
        simp only [List.length_cons] at hwin ⊢
        omega
      have ht0 : t = [] := by
        simp only [List.length_cons] at hlen1
        exact List.eq_nil_of_length_eq_zero (by omega)
      subst ht0
      exact ⟨by rw [hA, ha], by rw [if_pos rfl]; exact ⟨hF, hR⟩⟩
    · rw [if_neg hlast] at hF hR
      have htne : t ≠ [] := by
        intro ht; subst ht
        simp only [List.length_cons, List.length_nil] at hwin
        omega
      refine ⟨by rw [hA, ha], ?_⟩
      rw [if_neg htne]
      refine ⟨by omega, by omega, by omega, ?_, ?_⟩
      · rw [hF, hR]
        simp only [List.length_cons] at hwin
        have : (q.front + 1).toNat = q.front.toNat + 1 := by omega
        rw [this]
        omega
      · intro i hi
        rw [hA, hF]
        have hstep : (q.front + 1).toNat + i = q.front.toNat + (i + 1) := by
          omega
        rw [hstep, hg (i + 1) (by simp only [List.length_cons]; omega)]
        simp [List.getD_cons_succ]

theorem runQueue_fifo : ∀ (ops : List QOp) (q : QueueSt) (c : List Int),
    QRepInv q c → queueRunOk q ops = true →
    (runQueue q ops).2 = (c ++ qInsertions ops).take (countDeq ops) := by
  intro ops
  induction ops with
  | nil => intro q c _ _; simp [runQueue, qInsertions, countDeq]
  | cons op ops ih =>
    intro q c hrep hok
    cases op with
    | enq v =>
      simp only [queueRunOk, Bool.and_eq_true, decide_eq_true_eq] at hok
      obtain ⟨hov, hok2⟩ := hok
      have h1 := enqueue_QRep q c v hrep hov
      have h2 := ih (enqueue q v).1 (c ++ [v]) h1 hok2
      simp only [runQueue, qInsertions, countDeq, h2, List.append_assoc,
        List.cons_append, List.nil_append]
    | deq =>
      simp only [queueRunOk, Bool.and_eq_true, decide_eq_true_eq] at hok
      obtain ⟨hcond, hok2⟩ := hok
      have hcne : c ≠ [] := by
        intro hc; subst hc
        obtain ⟨_, hw⟩ := hrep
        rw [if_pos rfl] at hw
        exact hcond (Or.inl hw.1)
      obtain ⟨h1, h2⟩ := dequeue_QRep q c hrep hcne
      have h3 := ih (dequeue q).1 c.tail h2 hok2
      obtain ⟨hd, t, rfl⟩ := List.exists_cons_of_ne_nil hcne
      simp only [runQueue, qInsertions, countDeq, h3, h1, List.tail_cons,
        List.getD_cons_zero, List.cons_append, List.take_succ_cons]

/-- Counterexample to claim C6 as stated: the interleaved, never-underflowing
run push 1, pop, push 2, pop returns [1, 2] from its pops, which is not the
reverse [2, 1] of the insertion order. -/
theorem c6_counterexample :
    stackRunOk emptyStack [.push 1, .pop, .push 2, .pop] = true ∧
    (runStack emptyStack [.push 1, .pop, .push 2, .pop]).2 = [1, 2] ∧
    (sInsertions [.push 1, .pop, .push 2, .pop]).reverse = [2, 1] ∧
    ¬ (runStack emptyStack [.push 1, .pop, .push 2, .pop]).2
        = (sInsertions [.push 1, .pop, .push 2, .pop]).reverse := by
  refine ⟨by decide, by decide, by decide, by decide⟩

/-- Claim C6 (amended): for every block of pushes followed by pops that never
overflows or underflows, the values returned by pop are the reverse of the
insertion order (the last `k` pushed values, newest first); and for every
interleaved sequence of enqueues and dequeues that never overflows or
underflows, the values returned by dequeue are exactly the first inserted
values, in the order of insertion. -/
theorem c6_lifo_fifo :
    (∀ (vs : List Int) (k : Nat), vs.length ≤ MAX_SIZE → k ≤ vs.length →
      (popN (pushList emptyStack vs) k).2 = vs.reverse.take k) ∧
    (∀ ops : List QOp, queueRunOk emptyQueue ops = true →
      (runQueue emptyQueue ops).2 = (qInsertions ops).take (countDeq ops)) := by
  constructor
  · intro vs k hlen hk
    have hrep0 : SRep emptyStack [] := by
      refine ⟨by simp [emptyStack], by simp, by simp [emptyStack], ?_⟩
      intro i hi
      simp at hi
    have hrep := pushList_SRep vs emptyStack [] hrep0 (by simpa using hlen)
    simp only [List.nil_append] at hrep
    exact popN_SRep k _ vs hrep hk
  · intro ops hok
    have hrep0 : QRepInv emptyQueue [] := by
      refine ⟨by simp [emptyQueue], ?_⟩
      rw [if_pos rfl]
      exact ⟨rfl, rfl⟩
    have h := runQueue_fifo ops emptyQueue [] hrep0 hok
    simpa using h

/-- Witness for C6 (amended): pushes 10, 20, 30 then three pops return
[30, 20, 10]; the interleaved queue run enq 1, deq, enq 2, enq 3, deq returns
the first two insertions [1, 2] in order. -/
theorem c6_lifo_fifo_witness :
    (popN (pushList emptyStack [10, 20, 30]) 3).2
      = ([10, 20, 30] : List Int).reverse.take 3 ∧
    (runQueue emptyQueue [.enq 1, .deq, .enq 2, .enq 3, .deq]).2
      = (qInsertions [.enq 1, .deq, .enq 2, .enq 3, .deq]).take
          (countDeq [.enq 1, .deq, .enq 2, .enq 3, .deq]) :=
  ⟨c6_lifo_fifo.1 [10, 20, 30] 3 (by decide) (by decide),
   c6_lifo_fifo.2 [.enq 1, .deq, .enq 2, .enq 3, .deq] (by decide)⟩

/-! ## Claim C2: the sorting operations.  Shared helpers. -/

theorem range_map_getD (l : List Int) :
    (List.range l.length).map (fun i => l.getD i 0) = l := by
  apply List.ext_getElem
  · simp
  · intro n h1 h2
    simp only [List.getElem_map, List.getElem_range]
    exact List.getD_eq_getElem l 0 h2

theorem mkStep_data_of_length (action : String) (l : List Int) (size : Nat)
    (hl : Option (List Int)) (ptrs : Option (List Int)) (desc cx : String)
    (h : l.length = size) (hs : size ≤ MAX_SIZE) :
    (mkStep action l size hl ptrs desc cx).data = l := by
  simp only [mkStep]
  rw [min_eq_left hs, ← h]
  exact range_map_getD l

theorem getLast?_cons_concat (x y : Step) (l : List Step) :
    (x :: (l ++ [y])).getLast? = some y := by
  rw [← List.cons_append, List.getLast?_concat]

/-! ### Bubble sort is a sorting function -/

theorem bubbleInner_spec (size : Nat) : ∀ (rem : Nat) (a : List Int) (j : Nat),
    j + rem < a.length →
    (∀ k, k < j → a.getD k 0 ≤ a.getD j 0) →
    ((bubbleInner size a j rem).1.length = a.length ∧
     (bubbleInner size a j rem).1.Perm a ∧
     (∀ k, k < j ∨ j + rem < k →
       (bubbleInner size a j rem).1.getD k 0 = a.getD k 0) ∧
     (∀ k, k ≤ j + rem →
       (bubbleInner size a j rem).1.getD k 0
         ≤ (bubbleInner size a j rem).1.getD (j + rem) 0)) := by
  intro rem
  induction rem with
  | zero =>
    intro a j hlt hpre
    refine ⟨rfl, List.Perm.refl _, fun k _ => rfl, ?_⟩
    intro k hk
    show a.getD k 0 ≤ a.getD (j + 0) 0
    rw [Nat.add_zero]
    rcases Nat.lt_or_ge k j with h | h
    · exact hpre k h
    · have hkj : k = j := by omega
      subst hkj
      exact le_refl _
  | succ rem ih =>
    intro a j hlt hpre
    have hj1 : j + 1 < a.length := by omega
    have hjlt : j < a.length := by omega
    by_cases hcmp : a.getD j 0 > a.getD (j + 1) 0
    · have hred : (bubbleInner size a j (rem + 1)).1
          = (bubbleInner size (listSwap a j (j + 1)) (j + 1) rem).1 := by
        simp only [bubbleInner]
        rw [if_pos hcmp]
      have hl2 : (listSwap a j (j + 1)).length = a.length :=
        length_listSwap a j (j + 1)
      have hgj : (listSwap a j (j + 1)).getD j 0 = a.getD (j + 1) 0 :=
        getD_listSwap_snd a j (j + 1) hjlt (by omega)
      have hgj1 : (listSwap a j (j + 1)).getD (j + 1) 0 = a.getD j 0 :=
        getD_listSwap_fst a j (j + 1) hj1
      have hgo : ∀ k, k ≠ j → k ≠ j + 1 →
          (listSwap a j (j + 1)).getD k 0 = a.getD k 0 :=
        fun k h1 h2 => getD_listSwap_other a j (j + 1) k h1 h2
      have hpre2 : ∀ k, k < j + 1 →
          (listSwap a j (j + 1)).getD k 0 ≤ (listSwap a j (j + 1)).getD (j + 1) 0 := by
        intro k hk
        rw [hgj1]
        rcases Nat.lt_or_ge k j with h | h
        · rw [hgo k (by omega) (by omega)]
          exact hpre k h
        · have hkj : k = j := by omega
          subst hkj
          rw [hgj]
          exact le_of_lt hcmp
      obtain ⟨L, P, U, M⟩ := ih (listSwap a j (j + 1)) (j + 1)
        (by rw [hl2]; omega) hpre2
      rw [hred]
      refine ⟨by rw [L, hl2], P.trans (listSwap_perm a j (j + 1) hjlt hj1), ?_, ?_⟩
      · intro k hk
        rw [U k (by omega)]
        rcases hk with hk | hk
        · exact hgo k (by omega) (by omega)
        · exact hgo k (by omega) (by omega)
      · intro k hk
        have hidx : j + (rem + 1) = (j + 1) + rem := by omega
        rw [hidx]
        exact M k (by omega)
    · have hred : (bubbleInner size a j (rem + 1)).1
          = (bubbleInner size a (j + 1) rem).1 := by
        simp only [bubbleInner]
        rw [if_neg hcmp]
      have hpre2 : ∀ k, k < j + 1 → a.getD k 0 ≤ a.getD (j + 1) 0 := by
        intro k hk
        have hle : a.getD j 0 ≤ a.getD (j + 1) 0 := le_of_not_lt hcmp
        rcases Nat.lt_or_ge k j with h | h
        · exact le_trans (hpre k h) hle
        · have hkj : k = j := by omega
          subst hkj
          exact hle
      obtain ⟨L, P, U, M⟩ := ih a (j + 1) (by omega) hpre2
      rw [hred]
      refine ⟨L, P, ?_, ?_⟩
      · intro k hk
        exact U k (by omega)
      · intro k hk
        have hidx : j + (rem + 1) = (j + 1) + rem := by omega
        rw [hidx]
        exact M k (by omega)

theorem bubbleOuter_spec (size : Nat) : ∀ (rem : Nat) (a : List Int) (i : Nat),
    a.length = size → rem + i = size - 1 →
    (∀ p q, size - i ≤ q → q < size → p ≤ q → a.getD p 0 ≤ a.getD q 0) →
    ((bubbleOuter size a i rem).1.length = size ∧
     (bubbleOuter size a i rem).1.Perm a ∧
     (∀ p q, size - (i + rem) ≤ q → q < size → p ≤ q →
       (bubbleOuter size a i rem).1.getD p 0
         ≤ (bubbleOuter size a i rem).1.getD q 0)) := by
  intro rem
  induction rem with
  | zero =>
    intro a i hlen hrel hInv
    simp only [bubbleOuter, Nat.add_zero]
    exact ⟨hlen, List.Perm.refl a, fun p q h1 h2 h3 => hInv p q (by omega) h2 h3⟩
  | succ rem ih =>
    intro a i hlen hrel hInv
    have hsz : 2 ≤ size := by omega
    obtain ⟨L1, P1, U1, M1⟩ := bubbleInner_spec size (size - i - 1) a 0
      (by omega)
      (by intro k hk; exact absurd hk (Nat.not_lt_zero k))
    simp only [Nat.zero_add] at U1 M1
    have hred : (bubbleOuter size a i (rem + 1)).1
        = (bubbleOuter size (bubbleInner size a 0 (size - i - 1)).1 (i + 1) rem).1 := by
      simp only [bubbleOuter]
    have hsegperm : (seg (bubbleInner size a 0 (size - i - 1)).1 0 (size - i - 1)).Perm
        (seg a 0 (size - i - 1)) :=
      seg_perm_of_perm_outside _ a 0 (size - i - 1) L1 P1
        (fun k hk => U1 k (by omega))
    have hInv2 : ∀ p q, size - (i + 1) ≤ q → q < size → p ≤ q →
        (bubbleInner size a 0 (size - i - 1)).1.getD p 0
          ≤ (bubbleInner size a 0 (size - i - 1)).1.getD q 0 := by
      intro p q hq hqs hpq
      rcases Nat.lt_or_ge (size - i - 1) q with hqgt | hqle
      · have hq2 : (bubbleInner size a 0 (size - i - 1)).1.getD q 0 = a.getD q 0 :=
          U1 q (Or.inr hqgt)
        rcases Nat.lt_or_ge (size - i - 1) p with hpgt | hple
        · rw [hq2, U1 p (Or.inr hpgt)]
          exact hInv p q (by omega) hqs hpq
        · have hmem : (bubbleInner size a 0 (size - i - 1)).1.getD p 0
              ∈ seg (bubbleInner size a 0 (size - i - 1)).1 0 (size - i - 1) :=
            getD_mem_seg _ 0 (size - i - 1) p (Nat.zero_le p) hple
              (by rw [L1, hlen]; omega)
          have hmem2 := (List.Perm.mem_iff hsegperm).mp hmem
          obtain ⟨p', hp'1, hp'2, hp'3, hp'4⟩ :=
            mem_seg_imp a 0 (size - i - 1) _ hmem2
          rw [hq2, ← hp'4]
          exact hInv p' q (by omega) hqs (by omega)
      · have hqb : q = size - i - 1 := by omega
        subst hqb
        exact M1 p (by omega)
    obtain ⟨L2, P2, S2⟩ := ih (bubbleInner size a 0 (size - i - 1)).1 (i + 1)
      (by rw [L1, hlen]) (by omega) hInv2
    rw [hred]
    refine ⟨L2, P2.trans P1, ?_⟩
    intro p q h1 h2 h3
    exact S2 p q (by omega) h2 h3

theorem bubble_sort_sorted_perm (a : List Int) :
    (bubble_sort a a.length).1.length = a.length ∧
    (bubble_sort a a.length).1.Perm a ∧
    List.Sorted (fun x y : Int => x ≤ y) (bubble_sort a a.length).1 := by
  have harr : (bubble_sort a a.length).1
      = (bubbleOuter a.length a 0 (a.length - 1)).1 := rfl
  obtain ⟨L, P, S⟩ := bubbleOuter_spec a.length (a.length - 1) a 0 rfl (by omega)
    (by intro p q h1 h2 h3; omega)
  rw [harr]
  refine ⟨L, P, ?_⟩
  refine List.pairwise_iff_getElem.mpr ?_
  intro i j hi hj hij
  have hi' : i < a.length := by rw [← L]; exact hi
  have hj' : j < a.length := by rw [← L]; exact hj
  rw [← List.getD_eq_getElem _ 0 hi, ← List.getD_eq_getElem _ 0 hj]
  exact S i j (by omega) (by omega) (by omega)

/-! ### Selection sort is a sorting function -/

theorem selInner_spec (a : List Int) (size i : Nat) : ∀ (rem mi j : Nat),
    j + rem = size → i ≤ mi → mi < j →
    (∀ k, i ≤ k → k < j → a.getD mi 0 ≤ a.getD k 0) →
    (i ≤ (selInner a size i mi j rem).1 ∧ (selInner a size i mi j rem).1 < size ∧
     ∀ k, i ≤ k → k < size →
       a.getD (selInner a size i mi j rem).1 0 ≤ a.getD k 0) := by
  intro rem
  induction rem with
  | zero =>
    intro mi j hj hi hmj hmin
    refine ⟨hi, ?_, ?_⟩
    · show mi < size
      omega
    · intro k h1 h2
      exact hmin k h1 (by omega)
  | succ rem ih =>
    intro mi j hj hi hmj hmin
    have hred : (selInner a size i mi j (rem + 1)).1
        = (selInner a size i (if a.getD j 0 < a.getD mi 0 then j else mi)
            (j + 1) rem).1 := by
      simp only [selInner]
    by_cases hc : a.getD j 0 < a.getD mi 0
    · rw [if_pos hc] at hred
      rw [hred]
      apply ih j (j + 1) (by omega) (by omega) (by omega)
      intro k h1 h2
      rcases Nat.lt_or_ge k j with h | h
      · exact le_trans (le_of_lt hc) (hmin k h1 h)
      · have hkj : k = j := by omega
        subst hkj
        exact le_refl _
    · rw [if_neg hc] at hred
      rw [hred]
      apply ih mi (j + 1) (by omega) hi (by omega)
      intro k h1 h2
      rcases Nat.lt_or_ge k j with h | h
      · exact hmin k h1 h
      · have hkj : k = j := by omega
        subst hkj
        exact le_of_not_lt hc

theorem selOuter_spec (size : Nat) : ∀ (rem : Nat) (a : List Int) (i : Nat),
    a.length = size → rem + i = size - 1 →
    (∀ p q, p < i → p ≤ q → q < size → a.getD p 0 ≤ a.getD q 0) →
    ((selOuter size a i rem).1.length = size ∧
     (selOuter size a i rem).1.Perm a ∧
     (∀ p q, p < i + rem → p ≤ q → q < size →
       (selOuter size a i rem).1.getD p 0 ≤ (selOuter size a i rem).1.getD q 0)) := by
  intro rem
  induction rem with
  | zero =>
    intro a i hlen hrel hInv
    exact ⟨hlen, List.Perm.refl _, fun p q h1 h2 h3 => hInv p q (by omega) h2 h3⟩
  | succ rem ih =>
    intro a i hlen hrel hInv
    have hsz : 2 ≤ size := by omega
    obtain ⟨hmi1, hmi2, hmin⟩ := selInner_spec a size i (size - (i + 1)) i (i + 1)
      (by omega) (le_refl i) (by omega)
      (by intro k h1 h2
          have hk : k = i := by omega
          subst hk
          exact le_refl _)
    set mi := (selInner a size i i (i + 1) (size - (i + 1))).1 with hmidef
    by_cases hne : mi ≠ i
    · have hred : (selOuter size a i (rem + 1)).1
          = (selOuter size (listSwap a i mi) (i + 1) rem).1 := by
        simp only [selOuter, ← hmidef]
        rw [if_pos hne]
      have himi : i < mi := by omega
      have hil : i < a.length := by omega
      have hmil : mi < a.length := by omega
      have hlsw : (listSwap a i mi).length = a.length := length_listSwap a i mi
      have hswi : (listSwap a i mi).getD i 0 = a.getD mi 0 :=
        getD_listSwap_snd a i mi hil (by omega)
      have hswmi : (listSwap a i mi).getD mi 0 = a.getD i 0 :=
        getD_listSwap_fst a i mi hmil
      have hswo : ∀ k, k ≠ i → k ≠ mi →
          (listSwap a i mi).getD k 0 = a.getD k 0 :=
        fun k h1 h2 => getD_listSwap_other a i mi k h1 h2
      have hInv2 : ∀ p q, p < i + 1 → p ≤ q → q < size →
          (listSwap a i mi).getD p 0 ≤ (listSwap a i mi).getD q 0 := by
        intro p q h1 h2 h3
        rcases Nat.lt_or_ge p i with hp | hp
        · have hap : (listSwap a i mi).getD p 0 = a.getD p 0 :=
            hswo p (by omega) (by omega)
          by_cases hq1 : q = i
          · rw [hq1, hap, hswi]
            exact hInv p mi hp (by omega) (by omega)
          · by_cases hq2 : q = mi
            · rw [hq2, hap, hswmi]
              exact hInv p i hp (by omega) (by omega)
            · rw [hap, hswo q hq1 hq2]
              exact hInv p q hp h2 h3
        · have hpe : p = i := by omega
          rw [hpe, hswi]
          by_cases hq1 : q = i
          · rw [hq1, hswi]
          · by_cases hq2 : q = mi
            · rw [hq2, hswmi]
              exact hmin i (le_refl i) (by omega)
            · rw [hswo q hq1 hq2]
              exact hmin q (by omega) h3
      obtain ⟨L, P, S⟩ := ih (listSwap a i mi) (i + 1)
        (by rw [hlsw]; exact hlen) (by omega) hInv2
      rw [hred]
      refine ⟨L, P.trans (listSwap_perm a i mi hil hmil), ?_⟩
      intro p q h1 h2 h3
      exact S p q (by omega) h2 h3
    · have hred : (selOuter size a i (rem + 1)).1
          = (selOuter size a (i + 1) rem).1 := by
        simp only [selOuter, ← hmidef]
        rw [if_neg hne]
      rw [not_ne_iff] at hne
      rw [hne] at hmin
      have hInv2 : ∀ p q, p < i + 1 → p ≤ q → q < size →
          a.getD p 0 ≤ a.getD q 0 := by
        intro p q h1 h2 h3
        rcases Nat.lt_or_ge p i with hp | hp
        · exact hInv p q hp h2 h3
        · have hpe : p = i := by omega
          subst hpe
          exact hmin q (by omega) h3
      obtain ⟨L, P, S⟩ := ih a (i + 1) hlen (by omega) hInv2
      rw [hred]
      refine ⟨L, P, ?_⟩
      intro p q h1 h2 h3
      exact S p q (by omega) h2 h3

theorem selection_sort_sorted_perm (a : List Int) :
    (selection_sort a a.length).1.length = a.length ∧
    (selection_sort a a.length).1.Perm a ∧
    List.Sorted (fun x y : Int => x ≤ y) (selection_sort a a.length).1 := by
  have harr : (selection_sort a a.length).1
      = (selOuter a.length a 0 (a.length - 1)).1 := rfl
  obtain ⟨L, P, S⟩ := selOuter_spec a.length (a.length - 1) a 0 rfl (by omega)
    (by intro p q h1 h2 h3; omega)
  rw [harr]
  refine ⟨L, P, List.pairwise_iff_getElem.mpr ?_⟩
  intro i j hi hj hij
  have hj' : j < a.length := by rw [← L]; exact hj
  rw [← List.getD_eq_getElem _ 0 hi, ← List.getD_eq_getElem _ 0 hj]
  exact S i j (by omega) (by omega) (by omega)

/-! ### Insertion sort is a sorting function -/

theorem insInner_spec (size : Nat) (key : Int) : ∀ (p : Nat) (a : List Int),
    p < a.length →
    ((insInner size key a p).1.1.length = a.length ∧
     (insInner size key a p).1.2 ≤ p ∧
     (∀ k, k < (insInner size key a p).1.2 ∨ p < k →
       (insInner size key a p).1.1.getD k 0 = a.getD k 0) ∧
     (∀ k, (insInner size key a p).1.2 < k → k ≤ p →
       (insInner size key a p).1.1.getD k 0 = a.getD (k - 1) 0) ∧
     ((insInner size key a p).1.2 = 0 ∨
       ¬ key < a.getD ((insInner size key a p).1.2 - 1) 0) ∧
     (∀ k, (insInner size key a p).1.2 ≤ k → k < p → key < a.getD k 0)) := by
  intro p
  induction p with
  | zero =>
    intro a hp
    refine ⟨rfl, Nat.le_refl 0, fun k _ => rfl, ?_, Or.inl rfl, ?_⟩
    · intro k h1 h2
      omega
    · intro k h1 h2
      omega
  | succ pp ih =>
    intro a hp
    by_cases hc : a.getD pp 0 > key
    · have hred : (insInner size key a (pp + 1)).1
          = (insInner size key (a.set (pp + 1) (a.getD pp 0)) pp).1 := by
        simp only [insInner]
        rw [if_pos hc]
      have hlen2 : (a.set (pp + 1) (a.getD pp 0)).length = a.length := by simp
      obtain ⟨L, T, U, Sh, E, G⟩ := ih (a.set (pp + 1) (a.getD pp 0))
        (by rw [hlen2]; omega)
      rw [hred]
      refine ⟨by rw [L, hlen2], by omega, ?_, ?_, ?_, ?_⟩
      · intro k hk
        rcases hk with hk | hk
        · rw [U k (Or.inl hk), getD_set_ne _ _ _ _ (by omega)]
        · rw [U k (Or.inr (by omega)), getD_set_ne _ _ _ _ (by omega)]
      · intro k h1 h2
        rcases Nat.lt_or_ge k (pp + 1) with hk | hk
        · rw [Sh k h1 (by omega), getD_set_ne _ _ _ _ (by omega)]
        · have hke : k = pp + 1 := by omega
          rw [hke, U (pp + 1) (Or.inr (by omega)),
            getD_set_self _ _ _ (by omega)]
          rfl
      · rcases E with h | h
        · exact Or.inl h
        · refine Or.inr ?_
          rw [getD_set_ne _ _ _ _ (by omega)] at h
          exact h
      · intro k h1 h2
        rcases Nat.lt_or_ge k pp with hk | hk
        · have := G k h1 hk
          rw [getD_set_ne _ _ _ _ (by omega)] at this
          exact this
        · have hke : k = pp := by omega
          rw [hke]
          exact hc
    · have hred : (insInner size key a (pp + 1)).1 = (a, pp + 1) := by
        simp only [insInner]
        rw [if_neg hc]
      rw [hred]
      refine ⟨rfl, Nat.le_refl _, fun k _ => rfl, ?_, ?_, ?_⟩
      · intro k h1 h2
        omega
      · refine Or.inr ?_
        simpa using hc
      · intro k h1 h2
        omega

/-- One iteration of the outer insertion loop: shifting then placing the key
inserts it into the sorted prefix, preserving the multiset and the elements
above `i`. -/
theorem ins_step (size : Nat) (a : List Int) (i : Nat) (hi : i < a.length)
    (hSP : ∀ p q, p ≤ q → q < i → a.getD p 0 ≤ a.getD q 0) :
    (((insInner size (a.getD i 0) a i).1.1.set
        (insInner size (a.getD i 0) a i).1.2 (a.getD i 0)).Perm a ∧
     ((insInner size (a.getD i 0) a i).1.1.set
        (insInner size (a.getD i 0) a i).1.2 (a.getD i 0)).length = a.length ∧
     (∀ p q, p ≤ q → q < i + 1 →
       ((insInner size (a.getD i 0) a i).1.1.set
          (insInner size (a.getD i 0) a i).1.2 (a.getD i 0)).getD p 0 ≤
       ((insInner size (a.getD i 0) a i).1.1.set
          (insInner size (a.getD i 0) a i).1.2 (a.getD i 0)).getD q 0)) := by
  obtain ⟨L, T, U, Sh, E, G⟩ := insInner_spec size (a.getD i 0) i a hi
  set key := a.getD i 0 with hkey
  set t := (insInner size key a i).1.2 with ht
  set A2 := (insInner size key a i).1.1.set t key with hA2
  have hL2 : A2.length = a.length := by rw [hA2, List.length_set, L]
  have g1 : ∀ k, k < t → A2.getD k 0 = a.getD k 0 := by
    intro k hk
    rw [hA2, getD_set_ne _ _ _ _ (by omega), U k (Or.inl hk)]
  have g2 : A2.getD t 0 = key := by
    rw [hA2, getD_set_self _ _ _ (by rw [L]; omega)]
  have g3 : ∀ k, t < k → k ≤ i → A2.getD k 0 = a.getD (k - 1) 0 := by
    intro k h1 h2
    rw [hA2, getD_set_ne _ _ _ _ (by omega), Sh k h1 h2]
  have g4 : ∀ k, i < k → A2.getD k 0 = a.getD k 0 := by
    intro k hk
    rw [hA2, getD_set_ne _ _ _ _ (by omega), U k (Or.inr hk)]
  have hprefle : ∀ p, p < t → a.getD p 0 ≤ key := by
    intro p hpt
    rcases E with h0 | hE
    · omega
    · have h1 : a.getD (t - 1) 0 ≤ key := le_of_not_lt hE
      exact le_trans (hSP p (t - 1) (by omega) (by omega)) h1
  refine ⟨?_, hL2, ?_⟩
  · -- permutation via the three-piece decomposition
    have hdec2 := seg_decomp A2 t i (by omega)
    have hdec1 := seg_decomp a t i (by omega)
    have htake : A2.take t = a.take t :=
      take_eq_of_getD_eq A2 a t hL2 (fun k hk => g1 k hk)
    have hdrop : A2.drop (i + 1) = a.drop (i + 1) :=
      drop_eq_of_getD_eq A2 a (i + 1) hL2 (fun k hk => g4 k (by omega))
    have hseg2 : seg A2 t i = key :: (a.drop t).take (i - t) := by
      apply List.ext_getElem
      · rw [length_seg, hL2]
        simp only [List.length_cons, List.length_take, List.length_drop]
        omega
      · intro n h1 h2
        have hn : n < i + 1 - t := by
          rw [length_seg] at h1
          omega
        rw [getElem_seg A2 t i n h1]
        match n with
        | 0 =>
          simp only [List.getElem_cons_zero, Nat.add_zero]
          exact g2
        | m + 1 =>
          simp only [List.getElem_cons_succ]
          rw [g3 (t + (m + 1)) (by omega) (by omega)]
          have hb : m < ((a.drop t).take (i - t)).length := by
            simpa using h2
          rw [List.getElem_take, List.getElem_drop]
          rw [List.getD_eq_getElem a 0 (by simp at hb; omega)]
          congr 1
    have hseg1 : seg a t i = (a.drop t).take (i - t) ++ [key] := by
      apply List.ext_getElem
      · rw [length_seg]
        simp only [List.length_append, List.length_cons, List.length_nil,
          List.length_take, List.length_drop]
        omega
      · intro n h1 h2
        have hlm : ((a.drop t).take (i - t)).length = i - t := by
          simp only [List.length_take, List.length_drop]
          omega
        rw [getElem_seg a t i n h1]
        rcases Nat.lt_or_ge n (i - t) with hn | hn
        · rw [List.getElem_append_left (by omega)]
          rw [List.getElem_take, List.getElem_drop]
          exact List.getD_eq_getElem a 0 (by omega)
        · have hne : n = i - t := by
            rw [length_seg] at h1
            omega
          rw [List.getElem_concat_length _ _ _ (by omega)]
          rw [hkey]
          congr 1
          omega
    have hsegperm : (seg A2 t i).Perm (seg a t i) := by
      rw [hseg2, hseg1]
      have h := @List.perm_middle Int key ((a.drop t).take (i - t))
        ([] : List Int)
      rw [List.append_nil] at h
      exact h.symm
    calc A2 = A2.take t ++ seg A2 t i ++ A2.drop (i + 1) := hdec2
      _ = a.take t ++ seg A2 t i ++ a.drop (i + 1) := by rw [htake, hdrop]
      _ |>.Perm (a.take t ++ seg a t i ++ a.drop (i + 1)) :=
        ((hsegperm.append_left (a.take t)).append_right (a.drop (i + 1)))
      _ = a := hdec1.symm
  · intro p q hpq hq
    rcases Nat.lt_or_ge q t with hqt | hqt
    · rw [g1 p (by omega), g1 q hqt]
      exact hSP p q hpq (by omega)
    · rcases Nat.eq_or_lt_of_le hqt with hqe | hqlt
      · rw [← hqe, g2]
        rcases Nat.lt_or_ge p t with hpt | hpt
        · rw [g1 p (by omega)]
          exact hprefle p (by omega)
        · have hpe : p = q := by omega
          rw [hpe, ← hqe, g2]
      · have hq3 : A2.getD q 0 = a.getD (q - 1) 0 := g3 q hqlt (by omega)
        have hkq : key < a.getD (q - 1) 0 := G (q - 1) (by omega) (by omega)
        rcases Nat.lt_or_ge p t with hpt | hpt
        · rw [g1 p hpt, hq3]
          exact le_trans (hprefle p hpt) (le_of_lt hkq)
        · rcases Nat.eq_or_lt_of_le hpt with hpe | hplt
          · rw [← hpe, g2, hq3]
            exact le_of_lt hkq
          · rw [g3 p hplt (by omega), hq3]
            exact hSP (p - 1) (q - 1) (by omega) (by omega)

theorem insOuter_spec (size : Nat) : ∀ (rem : Nat) (a : List Int) (i : Nat),
    a.length = size → i + rem = size → 1 ≤ i →
    (∀ p q, p ≤ q → q < i → a.getD p 0 ≤ a.getD q 0) →
    ((insOuter size a i rem).1.length = size ∧
     (insOuter size a i rem).1.Perm a ∧
     (∀ p q, p ≤ q → q < i + rem →
       (insOuter size a i rem).1.getD p 0 ≤ (insOuter size a i rem).1.getD q 0)) := by
  intro rem
  induction rem with
  | zero =>
    intro a i hlen hrel hge hSP
    exact ⟨hlen, List.Perm.refl _, fun p q h1 h2 => hSP p q h1 (by omega)⟩
  | succ rem ih =>
    intro a i hlen hrel hge hSP
    have hi : i < a.length := by omega
    obtain ⟨hP, hL, hS⟩ := ins_step size a i hi hSP
    have hred : (insOuter size a i (rem + 1)).1
        = (insOuter size ((insInner size (a.getD i 0) a i).1.1.set
            (insInner size (a.getD i 0) a i).1.2 (a.getD i 0)) (i + 1) rem).1 := by
      simp only [insOuter]
    obtain ⟨L2, P2, S2⟩ := ih ((insInner size (a.getD i 0) a i).1.1.set
        (insInner size (a.getD i 0) a i).1.2 (a.getD i 0)) (i + 1)
      (by rw [hL]; exact hlen) (by omega) (by omega) hS
    rw [hred]
    refine ⟨L2, P2.trans hP, ?_⟩
    intro p q h1 h2
    exact S2 p q h1 (by omega)

theorem insertion_sort_sorted_perm (a : List Int) :
    (insertion_sort a a.length).1.length = a.length ∧
    (insertion_sort a a.length).1.Perm a ∧
    List.Sorted (fun x y : Int => x ≤ y) (insertion_sort a a.length).1 := by
  have harr : (insertion_sort a a.length).1
      = (insOuter a.length a 1 (a.length - 1)).1 := rfl
  by_cases h0 : a.length = 0
  · have ha : a = [] := List.eq_nil_of_length_eq_zero h0
    subst ha
    exact ⟨rfl, List.Perm.refl _, List.sorted_nil⟩
  · obtain ⟨L, P, S⟩ := insOuter_spec a.length (a.length - 1) a 1 rfl (by omega)
      (le_refl 1)
      (by intro p q h1 h2
          have hq : q = 0 := by omega
          have hp : p = 0 := by omega
          rw [hp, hq])
    rw [harr]
    refine ⟨L, P, List.pairwise_iff_getElem.mpr ?_⟩
    intro i j hi hj hij
    have hj' : j < a.length := by rw [← L]; exact hj
    rw [← List.getD_eq_getElem _ 0 hi, ← List.getD_eq_getElem _ 0 hj]
    exact S i j (by omega) (by omega)

/-! ### Quick sort is a sorting function -/

theorem partLoop_spec (osize low high : Nat) (pivot : Int) :
    ∀ (rem : Nat) (a : List Int) (ip1 j : Nat),
    j + rem = high → low ≤ ip1 → ip1 ≤ j → high < a.length →
    a.getD high 0 = pivot →
    (∀ k, low ≤ k → k < ip1 → a.getD k 0 < pivot) →
    (∀ k, ip1 ≤ k → k < j → ¬ a.getD k 0 < pivot) →
    ((partLoop osize low high pivot a ip1 j rem).1.1.length = a.length ∧
     (partLoop osize low high pivot a ip1 j rem).1.1.Perm a ∧
     (∀ k, k < low ∨ high ≤ k →
       (partLoop osize low high pivot a ip1 j rem).1.1.getD k 0 = a.getD k 0) ∧
     low ≤ (partLoop osize low high pivot a ip1 j rem).1.2 ∧
     (partLoop osize low high pivot a ip1 j rem).1.2 ≤ high ∧
     (∀ k, low ≤ k → k < (partLoop osize low high pivot a ip1 j rem).1.2 →
       (partLoop osize low high pivot a ip1 j rem).1.1.getD k 0 < pivot) ∧
     (∀ k, (partLoop osize low high pivot a ip1 j rem).1.2 ≤ k → k < high →
       ¬ (partLoop osize low high pivot a ip1 j rem).1.1.getD k 0 < pivot)) := by
  intro rem
  induction rem with
  | zero =>
    intro a ip1 j hj hlo hij hh hpiv hreg1 hreg2
    refine ⟨rfl, List.Perm.refl _, fun k _ => rfl, hlo, ?_, hreg1, ?_⟩
    · show ip1 ≤ high
      omega
    · intro k hk1 hk2
      exact hreg2 k hk1 (by omega)
  | succ rem ih =>
    intro a ip1 j hj hlo hij hh hpiv hreg1 hreg2
    have hjh : j < high := by omega
    have hjl : j < a.length := by omega
    by_cases h1 : a.getD j 0 < pivot
    · by_cases h2 : ip1 ≠ j
      · have hipj : ip1 < j := by omega
        have hred : (partLoop osize low high pivot a ip1 j (rem + 1)).1
            = (partLoop osize low high pivot (listSwap a ip1 j) (ip1 + 1)
                (j + 1) rem).1 := by
          simp only [partLoop]
          rw [if_pos h1, if_pos h2]
        have hil : ip1 < a.length := by omega
        have sw1 : (listSwap a ip1 j).getD ip1 0 = a.getD j 0 :=
          getD_listSwap_snd a ip1 j hil h2
        have sw2 : (listSwap a ip1 j).getD j 0 = a.getD ip1 0 :=
          getD_listSwap_fst a ip1 j hjl
        have swo : ∀ k, k ≠ ip1 → k ≠ j →
            (listSwap a ip1 j).getD k 0 = a.getD k 0 :=
          fun k hk1 hk2 => getD_listSwap_other a ip1 j k hk1 hk2
        obtain ⟨L, P, U, B1, B2, R1, R2⟩ := ih (listSwap a ip1 j) (ip1 + 1) (j + 1)
          (by omega) (by omega) (by omega)
          (by rw [length_listSwap]; exact hh)
          (by rw [swo high (by omega) (by omega)]; exact hpiv)
          (by intro k hk1 hk2
              rcases Nat.lt_or_ge k ip1 with hk | hk
              · rw [swo k (by omega) (by omega)]
                exact hreg1 k hk1 hk
              · have hke : k = ip1 := by omega
                rw [hke, sw1]
                exact h1)
          (by intro k hk1 hk2
              rcases Nat.lt_or_ge k j with hk | hk
              · rw [swo k (by omega) (by omega)]
                exact hreg2 k (by omega) hk
              · have hke : k = j := by omega
                rw [hke, sw2]
                exact hreg2 ip1 (le_refl _) hipj)
        rw [hred]
        refine ⟨by rw [L, length_listSwap], P.trans (listSwap_perm a ip1 j hil hjl),
          ?_, B1, B2, R1, R2⟩
        intro k hk
        rw [U k hk, swo k (by omega) (by omega)]
      · rw [not_ne_iff] at h2
        have hred : (partLoop osize low high pivot a ip1 j (rem + 1)).1
            = (partLoop osize low high pivot a (ip1 + 1) (j + 1) rem).1 := by
          simp only [partLoop]
          rw [if_pos h1, if_neg (by rw [not_ne_iff]; exact h2)]
        obtain ⟨L, P, U, B1, B2, R1, R2⟩ := ih a (ip1 + 1) (j + 1)
          (by omega) (by omega) (by omega) hh hpiv
          (by intro k hk1 hk2
              rcases Nat.lt_or_ge k ip1 with hk | hk
              · exact hreg1 k hk1 hk
              · have hke : k = ip1 := by omega
                rw [hke, h2]
                exact h1)
          (by intro k hk1 hk2; omega)
        rw [hred]
        exact ⟨L, P, U, B1, B2, R1, R2⟩
    · have hred : (partLoop osize low high pivot a ip1 j (rem + 1)).1
          = (partLoop osize low high pivot a ip1 (j + 1) rem).1 := by
        simp only [partLoop]
        rw [if_neg h1]
      obtain ⟨L, P, U, B1, B2, R1, R2⟩ := ih a ip1 (j + 1)
        (by omega) hlo (by omega) hh hpiv hreg1
        (by intro k hk1 hk2
            rcases Nat.lt_or_ge k j with hk | hk
            · exact hreg2 k hk1 hk
            · have hke : k = j := by omega
              rw [hke]
              exact h1)
      rw [hred]
      exact ⟨L, P, U, B1, B2, R1, R2⟩

theorem partition_spec (a : List Int) (osize low high : Nat)
    (hlh : low ≤ high) (hh : high < a.length) :
    ((partition a osize low high).1.1.length = a.length ∧
     (partition a osize low high).1.1.Perm a ∧
     (∀ k, k < low ∨ high < k →
       (partition a osize low high).1.1.getD k 0 = a.getD k 0) ∧
     low ≤ (partition a osize low high).1.2 ∧
     (partition a osize low high).1.2 ≤ high ∧
     (∀ k, low ≤ k → k < (partition a osize low high).1.2 →
       (partition a osize low high).1.1.getD k 0
         < (partition a osize low high).1.1.getD (partition a osize low high).1.2 0) ∧
     (∀ k, (partition a osize low high).1.2 < k → k ≤ high →
       (partition a osize low high).1.1.getD (partition a osize low high).1.2 0
         ≤ (partition a osize low high).1.1.getD k 0)) := by
  have hred : (partition a osize low high).1
      = (listSwap (partLoop osize low high (a.getD high 0) a low low (high - low)).1.1
          (partLoop osize low high (a.getD high 0) a low low (high - low)).1.2 high,
         (partLoop osize low high (a.getD high 0) a low low (high - low)).1.2) := by
    simp only [partition]
  obtain ⟨L, P, U, B1, B2, R1, R2⟩ := partLoop_spec osize low high (a.getD high 0)
    (high - low) a low low (by omega) (le_refl low) (le_refl low) hh rfl
    (by intro k hk1 hk2; omega) (by intro k hk1 hk2; omega)
  set A1 := (partLoop osize low high (a.getD high 0) a low low (high - low)).1.1
    with hA1
  set t := (partLoop osize low high (a.getD high 0) a low low (high - low)).1.2
    with ht
  have htl : t < A1.length := by rw [L]; omega
  have hhl : high < A1.length := by rw [L]; omega
  have hApiv : A1.getD high 0 = a.getD high 0 := U high (Or.inr (le_refl _))
  have hA2t : (listSwap A1 t high).getD t 0 = a.getD high 0 := by
    by_cases hth : t = high
    · rw [hth, getD_listSwap_fst A1 high high hhl]
      exact hApiv
    · rw [getD_listSwap_snd A1 t high htl hth]
      exact hApiv
  rw [hred]
  refine ⟨?_, ?_, ?_, B1, B2, ?_, ?_⟩
  · rw [length_listSwap, L]
  · exact (listSwap_perm A1 t high htl hhl).trans P
  · intro k hk
    rw [getD_listSwap_other A1 t high k (by omega) (by omega), U k (by omega)]
  · intro k hk1 hk2
    rw [hA2t, getD_listSwap_other A1 t high k (by omega) (by omega)]
    exact R1 k hk1 hk2
  · intro k hk1 hk2
    rw [hA2t]
    rcases Nat.lt_or_ge k high with hk | hk
    · rw [getD_listSwap_other A1 t high k (by omega) (by omega)]
      exact le_of_not_lt (R2 k (by omega) hk)
    · have hke : k = high := by omega
      rw [hke, getD_listSwap_fst A1 t high hhl]
      exact le_of_not_lt (R2 t (le_refl _) (by omega))

theorem quick_sortF_spec (osize : Nat) : ∀ (fuel : Nat) (a : List Int) (low high : Nat),
    high + 1 - low ≤ fuel → high < a.length →
    ((quick_sortF osize fuel a low high).1.length = a.length ∧
     (quick_sortF osize fuel a low high).1.Perm a ∧
     (∀ k, k < low ∨ high < k →
       (quick_sortF osize fuel a low high).1.getD k 0 = a.getD k 0) ∧
     (∀ p q, low ≤ p → p ≤ q → q ≤ high →
       (quick_sortF osize fuel a low high).1.getD p 0
         ≤ (quick_sortF osize fuel a low high).1.getD q 0) ∧
     (¬ low < high → (quick_sortF osize fuel a low high).1 = a)) := by
  intro fuel
  induction fuel with
  | zero =>
    intro a low high hf hh
    refine ⟨rfl, List.Perm.refl _, fun k _ => rfl, ?_, fun _ => rfl⟩
    intro p q h1 h2 h3
    omega
  | succ fuel ih =>
    intro a low high hf hh
    by_cases hlh : low < high
    · have hred : (quick_sortF osize (fuel + 1) a low high).1
          = (quick_sortF osize fuel (quick_sortF osize fuel
              (partition a osize low high).1.1 low
              ((partition a osize low high).1.2 - 1)).1
              ((partition a osize low high).1.2 + 1) high).1 := by
        simp only [quick_sortF]
        rw [if_pos hlh]
      obtain ⟨L1, P1, U1, B1, B2, R1, R2⟩ :=
        partition_spec a osize low high (le_of_lt hlh) hh
      set A1 := (partition a osize low high).1.1 with hA1
      set pi := (partition a osize low high).1.2 with hpi
      obtain ⟨L2, P2, U2, S2, D2⟩ := ih A1 low (pi - 1)
        (by omega) (by rw [L1]; omega)
      set A2 := (quick_sortF osize fuel A1 low (pi - 1)).1 with hA2
      obtain ⟨L3, P3, U3, S3, D3⟩ := ih A2 (pi + 1) high
        (by omega) (by rw [L2, L1]; omega)
      set A3 := (quick_sortF osize fuel A2 (pi + 1) high).1 with hA3
      have hA2pi : A2.getD pi 0 = A1.getD pi 0 := by
        by_cases hp0 : pi = 0
        · rw [D2 (by omega)]
        · exact U2 pi (Or.inr (by omega))
      have hA3pi : A3.getD pi 0 = A2.getD pi 0 := U3 pi (Or.inl (by omega))
      have hpv : A3.getD pi 0 = A1.getD pi 0 := by rw [hA3pi, hA2pi]
      have hseg2 : (seg A2 low (pi - 1)).Perm (seg A1 low (pi - 1)) :=
        seg_perm_of_perm_outside A2 A1 low (pi - 1) L2 P2 (fun k hk => U2 k hk)
      have hseg3 : (seg A3 (pi + 1) high).Perm (seg A2 (pi + 1) high) :=
        seg_perm_of_perm_outside A3 A2 (pi + 1) high L3 P3 (fun k hk => U3 k hk)
      have F1 : ∀ k, low ≤ k → k < pi → A3.getD k 0 < A3.getD pi 0 := by
        intro k h1 h2
        have hk3 : A3.getD k 0 = A2.getD k 0 := U3 k (Or.inl (by omega))
        have hmem : A2.getD k 0 ∈ seg A2 low (pi - 1) :=
          getD_mem_seg A2 low (pi - 1) k h1 (by omega) (by rw [L2, L1]; omega)
        have hmem2 := hseg2.mem_iff.mp hmem
        obtain ⟨k', hk'1, hk'2, hk'3, hk'4⟩ := mem_seg_imp A1 low (pi - 1) _ hmem2
        rw [hk3, ← hk'4, hpv]
        exact R1 k' hk'1 (by omega)
      have F2 : ∀ k, pi < k → k ≤ high → A3.getD pi 0 ≤ A3.getD k 0 := by
        intro k h1 h2
        have hmem : A3.getD k 0 ∈ seg A3 (pi + 1) high :=
          getD_mem_seg A3 (pi + 1) high k (by omega) h2
            (by rw [L3, L2, L1]; omega)
        have hmem2 := hseg3.mem_iff.mp hmem
        obtain ⟨k', hk'1, hk'2, hk'3, hk'4⟩ := mem_seg_imp A2 (pi + 1) high _ hmem2
        have hk'5 : A2.getD k' 0 = A1.getD k' 0 := U2 k' (Or.inr (by omega))
        rw [← hk'4, hk'5, hpv]
        exact R2 k' (by omega) hk'2
      have F3 : ∀ p q, low ≤ p → p ≤ q → q < pi →
          A3.getD p 0 ≤ A3.getD q 0 := by
        intro p q h1 h2 h3
        rw [U3 p (Or.inl (by omega)), U3 q (Or.inl (by omega))]
        exact S2 p q h1 h2 (by omega)
      rw [hred]
      refine ⟨by rw [L3, L2, L1], (P3.trans P2).trans P1, ?_, ?_, ?_⟩
      · intro k hk
        rw [U3 k (by omega), U2 k (by omega), U1 k (by omega)]
      · intro p q h1 h2 h3
        rcases Nat.lt_or_ge q pi with hq | hq
        · exact F3 p q h1 h2 hq
        · rcases Nat.eq_or_lt_of_le hq with hqe | hqlt
          · rw [← hqe]
            rcases Nat.lt_or_ge p pi with hp | hp
            · exact le_of_lt (F1 p h1 hp)
            · have hpe : p = pi := by omega
              rw [hpe]
          · rcases Nat.lt_or_ge p pi with hp | hp
            · exact le_trans (le_of_lt (F1 p h1 hp)) (F2 q hqlt h3)
            · rcases Nat.eq_or_lt_of_le hp with hpe | hplt
              · rw [← hpe]
                exact F2 q hqlt h3
              · exact S3 p q (by omega) h2 h3
      · intro hc
        exact absurd hlh hc
    · have hred : (quick_sortF osize (fuel + 1) a low high).1 = a := by
        simp only [quick_sortF]
        rw [if_neg hlh]
      rw [hred]
      refine ⟨rfl, List.Perm.refl _, fun k _ => rfl, ?_, fun _ => rfl⟩
      intro p q h1 h2 h3
      have hpq : p = q := by omega
      rw [hpq]

theorem quick_sort_wrapper_sorted_perm (a : List Int) :
    (quick_sort_wrapper a a.length).1.length = a.length ∧
    (quick_sort_wrapper a a.length).1.Perm a ∧
    List.Sorted (fun x y : Int => x ≤ y) (quick_sort_wrapper a a.length).1 := by
  have harr : (quick_sort_wrapper a a.length).1
      = (quick_sortF a.length (a.length - 1 + 1 - 0) a 0 (a.length - 1)).1 := rfl
  by_cases h0 : a.length = 0
  · have ha : a = [] := List.eq_nil_of_length_eq_zero h0
    subst ha
    exact ⟨rfl, List.Perm.refl _, List.sorted_nil⟩
  · obtain ⟨L, P, U, S, D⟩ := quick_sortF_spec a.length (a.length - 1 + 1 - 0) a 0
      (a.length - 1) (le_refl _) (by omega)
    rw [harr]
    refine ⟨L, P, List.pairwise_iff_getElem.mpr ?_⟩
    intro i j hi hj hij
    have hj' : j < a.length := by rw [← L]; exact hj
    rw [← List.getD_eq_getElem _ 0 hi, ← List.getD_eq_getElem _ 0 hj]
    exact S i j (by omega) (by omega) (by omega)

/-! ### Merge sort is a sorting function: `writeRun` and `mergeLists` -/

theorem length_writeRun : ∀ (vs a : List Int) (k : Nat),
    (writeRun a k vs).length = a.length := by
  intro vs
  induction vs with
  | nil => intro a k; rfl
  | cons v vs ih =>
    intro a k
    simp only [writeRun]
    rw [ih, List.length_set]

theorem getD_writeRun_lt : ∀ (vs a : List Int) (k k' : Nat), k' < k →
    (writeRun a k vs).getD k' 0 = a.getD k' 0 := by
  intro vs
  induction vs with
  | nil => intro a k k' _; rfl
  | cons v vs ih =>
    intro a k k' h
    simp only [writeRun]
    rw [ih _ _ _ (by omega), getD_set_ne _ _ _ _ (by omega)]

theorem getD_writeRun_ge : ∀ (vs a : List Int) (k k' : Nat),
    k + vs.length ≤ k' → (writeRun a k vs).getD k' 0 = a.getD k' 0 := by
  intro vs
  induction vs with
  | nil => intro a k k' _; rfl
  | cons v vs ih =>
    intro a k k' h
    simp only [List.length_cons] at h
    simp only [writeRun]
    rw [ih _ _ _ (by omega), getD_set_ne _ _ _ _ (by omega)]

theorem getD_writeRun_in : ∀ (vs a : List Int) (k i : Nat), i < vs.length →
    k + vs.length ≤ a.length →
    (writeRun a k vs).getD (k + i) 0 = vs.getD i 0 := by
  intro vs
  induction vs with
  | nil => intro a k i h _; simp at h
  | cons v vs ih =>
    intro a k i hi hlen
    simp only [List.length_cons] at hlen
    match i with
    | 0 =>
      simp only [writeRun, Nat.add_zero, List.getD_cons_zero]
      rw [getD_writeRun_lt _ _ _ _ (by omega), getD_set_self _ _ _ (by omega)]
    | m + 1 =>
      have hidx : k + (m + 1) = (k + 1) + m := by omega
      simp only [writeRun, List.getD_cons_succ]
      rw [hidx, ih _ _ _ (by simpa using hi) (by simp; omega)]

theorem writeRun_append : ∀ (xs ys a : List Int) (k : Nat),
    writeRun a k (xs ++ ys) = writeRun (writeRun a k xs) (k + xs.length) ys := by
  intro xs
  induction xs with
  | nil => intro ys a k; simp [writeRun]
  | cons x xs ih =>
    intro ys a k
    calc writeRun a k ((x :: xs) ++ ys)
        = writeRun (writeRun (a.set k x) (k + 1) xs) ((k + 1) + xs.length) ys :=
          ih ys (a.set k x) (k + 1)
      _ = writeRun (writeRun a k (x :: xs)) (k + (x :: xs).length) ys := by
          congr 1
          simp only [List.length_cons]
          omega

theorem getD_append_right' (l l' : List Int) (n : Nat) (h : l.length ≤ n) :
    (l ++ l').getD n 0 = l'.getD (n - l.length) 0 := by
  by_cases h2 : n < (l ++ l').length
  · rw [List.getD_eq_getElem _ 0 h2,
      List.getD_eq_getElem _ 0 (by simp at h2; omega)]
    exact List.getElem_append_right h
  · rw [List.getD_eq_default _ 0 (by omega),
      List.getD_eq_default _ 0 (by simp at h2 ⊢; omega)]

theorem getD_drop' (a : List Int) (m i : Nat) :
    (a.drop m).getD i 0 = a.getD (m + i) 0 := by
  by_cases h : m + i < a.length
  · rw [List.getD_eq_getElem _ 0 (by simp; omega), List.getD_eq_getElem _ 0 h]
    exact List.getElem_drop a
  · rw [List.getD_eq_default _ 0 (by simp; omega),
      List.getD_eq_default _ 0 (by omega)]

theorem getD_take' (a : List Int) (k n : Nat) (h : n < k) :
    (a.take k).getD n 0 = a.getD n 0 := by
  by_cases h2 : n < a.length
  · rw [List.getD_eq_getElem _ 0 (by simp; omega), List.getD_eq_getElem _ 0 h2]
    exact List.getElem_take a
  · rw [List.getD_eq_default _ 0 (by simp; omega),
      List.getD_eq_default _ 0 (by omega)]

theorem writeRun_eq (vs : List Int) : ∀ (a : List Int) (k : Nat),
    k + vs.length ≤ a.length →
    writeRun a k vs = a.take k ++ vs ++ a.drop (k + vs.length) := by
  intro a k h
  apply List.ext_getElem
  · rw [length_writeRun]
    simp
    omega
  · intro n h1 h2
    rw [length_writeRun] at h1
    have htl : (a.take k).length = k := by simp; omega
    have htvl : (a.take k ++ vs).length = k + vs.length := by simp; omega
    rw [← List.getD_eq_getElem _ 0 (by rw [length_writeRun]; exact h1),
      ← List.getD_eq_getElem _ 0 h2]
    rcases Nat.lt_or_ge n k with hn | hn
    · rw [getD_writeRun_lt _ _ _ _ hn]
      rw [List.getD_append _ _ _ _ (by omega), List.getD_append _ _ _ _ (by omega),
        getD_take' a k n hn]
    · rcases Nat.lt_or_ge n (k + vs.length) with hn2 | hn2
      · have hlhs : (writeRun a k vs).getD n 0 = vs.getD (n - k) 0 := by
          have hin := getD_writeRun_in vs a k (n - k) (by omega) h
          rwa [show k + (n - k) = n from by omega] at hin
        rw [hlhs, List.getD_append _ _ _ _ (by omega),
          getD_append_right' _ _ _ (by omega), htl]
      · rw [getD_writeRun_ge _ _ _ _ hn2]
        rw [getD_append_right' _ _ _ (by omega), htvl, getD_drop']
        congr 1
        omega

theorem mergeLists_nil_right (l : List Int) : mergeLists l [] = l := by
  cases l with
  | nil => simp [mergeLists]
  | cons x xs => simp [mergeLists]

theorem length_mergeLists : ∀ (n : Nat) (xs ys : List Int),
    xs.length + ys.length ≤ n →
    (mergeLists xs ys).length = xs.length + ys.length := by
  intro n
  induction n with
  | zero =>
    intro xs ys h
    cases xs with
    | nil => simp [mergeLists]
    | cons x xs => simp at h
  | succ n ih =>
    intro xs ys h
    cases xs with
    | nil => simp [mergeLists]
    | cons x xs =>
      cases ys with
      | nil => simp [mergeLists_nil_right]
      | cons y ys =>
        by_cases hc : x ≤ y
        · have hred : mergeLists (x :: xs) (y :: ys)
              = x :: mergeLists xs (y :: ys) := by
            simp only [mergeLists]
            rw [if_pos hc]
          rw [hred, List.length_cons,
            ih xs (y :: ys) (by simp only [List.length_cons] at h ⊢; omega)]
          simp only [List.length_cons]
          omega
        · have hred : mergeLists (x :: xs) (y :: ys)
              = y :: mergeLists (x :: xs) ys := by
            simp only [mergeLists]
            rw [if_neg hc]
          rw [hred, List.length_cons,
            ih (x :: xs) ys (by simp only [List.length_cons] at h ⊢; omega)]
          simp only [List.length_cons]
          omega

theorem perm_mergeLists : ∀ (n : Nat) (xs ys : List Int),
    xs.length + ys.length ≤ n → (mergeLists xs ys).Perm (xs ++ ys) := by
  intro n
  induction n with
  | zero =>
    intro xs ys h
    cases xs with
    | nil => simp [mergeLists]
    | cons x xs => simp at h
  | succ n ih =>
    intro xs ys h
    cases xs with
    | nil => simp [mergeLists]
    | cons x xs =>
      cases ys with
      | nil => rw [mergeLists_nil_right, List.append_nil]
      | cons y ys =>
        by_cases hc : x ≤ y
        · have hred : mergeLists (x :: xs) (y :: ys)
              = x :: mergeLists xs (y :: ys) := by
            simp only [mergeLists]
            rw [if_pos hc]
          rw [hred, List.cons_append]
          exact List.Perm.cons x
            (ih xs (y :: ys) (by simp only [List.length_cons] at h ⊢; omega))
        · have hred : mergeLists (x :: xs) (y :: ys)
              = y :: mergeLists (x :: xs) ys := by
            simp only [mergeLists]
            rw [if_neg hc]
          rw [hred]
          exact (List.Perm.cons y
            (ih (x :: xs) ys (by simp only [List.length_cons] at h ⊢; omega))).trans
            List.perm_middle.symm

theorem sorted_mergeLists : ∀ (n : Nat) (xs ys : List Int),
    xs.length + ys.length ≤ n →
    List.Sorted (fun x y : Int => x ≤ y) xs →
    List.Sorted (fun x y : Int => x ≤ y) ys →
    List.Sorted (fun x y : Int => x ≤ y) (mergeLists xs ys) := by
  intro n
  induction n with
  | zero =>
    intro xs ys h _ _
    cases xs with
    | nil => simpa [mergeLists] using (by assumption)
    | cons x xs => simp at h
  | succ n ih =>
    intro xs ys h hx hy
    cases xs with
    | nil => simpa [mergeLists] using hy
    | cons x xs =>
      cases ys with
      | nil => rw [mergeLists_nil_right]; exact hx
      | cons y ys =>
        rw [List.sorted_cons] at hx hy
        obtain ⟨hxb, hxs⟩ := hx
        obtain ⟨hyb, hys⟩ := hy
        by_cases hc : x ≤ y
        · have hred : mergeLists (x :: xs) (y :: ys)
              = x :: mergeLists xs (y :: ys) := by
            simp only [mergeLists]
            rw [if_pos hc]
          rw [hred, List.sorted_cons]
          constructor
          · intro b hb
            have hmem := (perm_mergeLists (xs.length + (y :: ys).length) xs
              (y :: ys) (le_refl _)).mem_iff.mp hb
            rcases List.mem_append.mp hmem with hmem | hmem
            · exact hxb b hmem
            · rcases List.mem_cons.mp hmem with hbe | hmem
              · rw [hbe]; exact hc
              · exact le_trans hc (hyb b hmem)
          · exact ih xs (y :: ys) (by simp only [List.length_cons] at h ⊢; omega)
              hxs (List.sorted_cons.mpr ⟨hyb, hys⟩)
        · have hred : mergeLists (x :: xs) (y :: ys)
              = y :: mergeLists (x :: xs) ys := by
            simp only [mergeLists]
            rw [if_neg hc]
          have hyx : y ≤ x := le_of_not_le hc
          rw [hred, List.sorted_cons]
          constructor
          · intro b hb
            have hmem := (perm_mergeLists ((x :: xs).length + ys.length) (x :: xs)
              ys (le_refl _)).mem_iff.mp hb
            rcases List.mem_append.mp hmem with hmem | hmem
            · rcases List.mem_cons.mp hmem with hbe | hmem
              · rw [hbe]; exact hyx
              · exact le_trans hyx (hxb b hmem)
            · exact hyb b hmem
          · exact ih (x :: xs) ys (by simp only [List.length_cons] at h ⊢; omega)
              (List.sorted_cons.mpr ⟨hxb, hxs⟩) hys

theorem mergeLoop_spec (la ra : List Int) (osize left mid : Nat) :
    ∀ (rem : Nat) (arr orig : List Int) (i j k : Nat),
    i ≤ la.length → j ≤ ra.length →
    (la.length - i) + (ra.length - j) ≤ rem →
    ∃ pre : List Int,
      mergeLists (la.drop i) (ra.drop j)
        = pre ++ mergeLists
            (la.drop (mergeLoop la ra osize left mid ⟨arr, orig, i, j, k⟩ rem).1.i)
            (ra.drop (mergeLoop la ra osize left mid ⟨arr, orig, i, j, k⟩ rem).1.j) ∧
      (mergeLoop la ra osize left mid ⟨arr, orig, i, j, k⟩ rem).1.arr
        = writeRun arr k pre ∧
      (mergeLoop la ra osize left mid ⟨arr, orig, i, j, k⟩ rem).1.k
        = k + pre.length ∧
      i ≤ (mergeLoop la ra osize left mid ⟨arr, orig, i, j, k⟩ rem).1.i ∧
      (mergeLoop la ra osize left mid ⟨arr, orig, i, j, k⟩ rem).1.i ≤ la.length ∧
      j ≤ (mergeLoop la ra osize left mid ⟨arr, orig, i, j, k⟩ rem).1.j ∧
      (mergeLoop la ra osize left mid ⟨arr, orig, i, j, k⟩ rem).1.j ≤ ra.length ∧
      ((mergeLoop la ra osize left mid ⟨arr, orig, i, j, k⟩ rem).1.i = la.length ∨
        (mergeLoop la ra osize left mid ⟨arr, orig, i, j, k⟩ rem).1.j = ra.length) := by
  intro rem
  induction rem with
  | zero =>
    intro arr orig i j k hi hj hf
    simp only [mergeLoop]
    refine ⟨[], by simp, rfl, by simp, le_refl _, hi, le_refl _, hj, ?_⟩
    left
    omega
  | succ rem ih =>
    intro arr orig i j k hi hj hf
    by_cases hguard : i < la.length ∧ j < ra.length
    · obtain ⟨hgi, hgj⟩ := hguard
      have hdl : la.drop i = la.getD i 0 :: la.drop (i + 1) := by
        rw [List.getD_eq_getElem la 0 hgi]
        exact List.drop_eq_getElem_cons hgi
      have hdr : ra.drop j = ra.getD j 0 :: ra.drop (j + 1) := by
        rw [List.getD_eq_getElem ra 0 hgj]
        exact List.drop_eq_getElem_cons hgj
      by_cases hc : la.getD i 0 ≤ ra.getD j 0
      · simp only [mergeLoop]
        rw [if_pos (And.intro hgi hgj), if_pos hc]
        dsimp only
        obtain ⟨pre, hEq, hArr, hK, hI1, hI2, hJ1, hJ2, hEnd⟩ :=
          ih (arr.set k (la.getD i 0))
            (orig.set k ((arr.set k (la.getD i 0)).getD k 0)) (i + 1) j (k + 1)
            (by omega) hj (by omega)
        have hm : mergeLists (la.drop i) (ra.drop j)
            = la.getD i 0 :: mergeLists (la.drop (i + 1)) (ra.drop j) := by
          rw [hdl, hdr]
          simp only [mergeLists]
          rw [if_pos hc, ← hdr]
        refine ⟨la.getD i 0 :: pre, ?_, ?_, ?_, by omega, hI2, hJ1, hJ2, hEnd⟩
        · rw [hm, hEq, List.cons_append]
        · rw [hArr]
          rfl
        · rw [hK]
          simp only [List.length_cons]
          omega
      · simp only [mergeLoop]
        rw [if_pos (And.intro hgi hgj), if_neg hc]
        dsimp only
        obtain ⟨pre, hEq, hArr, hK, hI1, hI2, hJ1, hJ2, hEnd⟩ :=
          ih (arr.set k (ra.getD j 0))
            (orig.set k ((arr.set k (ra.getD j 0)).getD k 0)) i (j + 1) (k + 1)
            hi (by omega) (by omega)
        have hm : mergeLists (la.drop i) (ra.drop j)
            = ra.getD j 0 :: mergeLists (la.drop i) (ra.drop (j + 1)) := by
          rw [hdl, hdr]
          simp only [mergeLists]
          rw [if_neg hc, ← hdl]
        refine ⟨ra.getD j 0 :: pre, ?_, ?_, ?_, hI1, hI2, by omega, hJ2, hEnd⟩
        · rw [hm, hEq, List.cons_append]
        · rw [hArr]
          rfl
        · rw [hK]
          simp only [List.length_cons]
          omega
    · simp only [mergeLoop]
      rw [if_neg hguard]
      dsimp only
      refine ⟨[], by simp, rfl, by simp, le_refl _, hi, le_refl _, hj, ?_⟩
      rcases not_and_or.mp hguard with h | h
      · left
        omega
      · right
        omega

theorem mergeCopyLeft_spec (la : List Int) (osize : Nat) :
    ∀ (rem : Nat) (arr orig : List Int) (i j k : Nat),
    i ≤ la.length → la.length - i ≤ rem →
    ((mergeCopyLeft la osize ⟨arr, orig, i, j, k⟩ rem).1.arr
        = writeRun arr k (la.drop i) ∧
     (mergeCopyLeft la osize ⟨arr, orig, i, j, k⟩ rem).1.j = j ∧
     (mergeCopyLeft la osize ⟨arr, orig, i, j, k⟩ rem).1.k
        = k + (la.length - i)) := by
  intro rem
  induction rem with
  | zero =>
    intro arr orig i j k hi hf
    have hieq : i = la.length := by omega
    simp only [mergeCopyLeft]
    refine ⟨?_, by trivial, by omega⟩
    rw [hieq, List.drop_length]
    rfl
  | succ rem ih =>
    intro arr orig i j k hi hf
    by_cases hg : i < la.length
    · simp only [mergeCopyLeft]
      rw [if_pos hg]
      dsimp only
      obtain ⟨hA, hJ, hK⟩ := ih (arr.set k (la.getD i 0))
        (orig.set k ((arr.set k (la.getD i 0)).getD k 0)) (i + 1) j (k + 1)
        (by omega) (by omega)
      have hdl : la.drop i = la.getD i 0 :: la.drop (i + 1) := by
        rw [List.getD_eq_getElem la 0 hg]
        exact List.drop_eq_getElem_cons hg
      refine ⟨?_, hJ, ?_⟩
      · rw [hA, hdl]
        rfl
      · rw [hK]
        omega
    · have hieq : i = la.length := by omega
      simp only [mergeCopyLeft]
      rw [if_neg hg]
      dsimp only
      refine ⟨?_, by trivial, by omega⟩
      rw [hieq, List.drop_length]
      rfl

theorem mergeCopyRight_spec (ra : List Int) (osize : Nat) :
    ∀ (rem : Nat) (arr orig : List Int) (i j k : Nat),
    j ≤ ra.length → ra.length - j ≤ rem →
    ((mergeCopyRight ra osize ⟨arr, orig, i, j, k⟩ rem).1.arr
        = writeRun arr k (ra.drop j) ∧
     (mergeCopyRight ra osize ⟨arr, orig, i, j, k⟩ rem).1.k
        = k + (ra.length - j)) := by
  intro rem
  induction rem with
  | zero =>
    intro arr orig i j k hj hf
    have hjeq : j = ra.length := by omega
    simp only [mergeCopyRight]
    refine ⟨?_, by omega⟩
    rw [hjeq, List.drop_length]
    rfl
  | succ rem ih =>
    intro arr orig i j k hj hf
    by_cases hg : j < ra.length
    · simp only [mergeCopyRight]
      rw [if_pos hg]
      dsimp only
      obtain ⟨hA, hK⟩ := ih (arr.set k (ra.getD j 0))
        (orig.set k ((arr.set k (ra.getD j 0)).getD k 0)) i (j + 1) (k + 1)
        (by omega) (by omega)
      have hdr : ra.drop j = ra.getD j 0 :: ra.drop (j + 1) := by
        rw [List.getD_eq_getElem ra 0 hg]
        exact List.drop_eq_getElem_cons hg
      refine ⟨?_, ?_⟩
      · rw [hA, hdr]
        rfl
      · rw [hK]
        omega
    · have hjeq : j = ra.length := by omega
      simp only [mergeCopyRight]
      rw [if_neg hg]
      dsimp only
      refine ⟨?_, by omega⟩
      rw [hjeq, List.drop_length]
      rfl

theorem seg_eq_of_getD_eq (a b : List Int) (lo hi : Nat)
    (hlen : a.length = b.length)
    (h : ∀ k, lo ≤ k → k ≤ hi → a.getD k 0 = b.getD k 0) :
    seg a lo hi = seg b lo hi := by
  apply List.ext_getElem
  · rw [length_seg, length_seg, hlen]
  · intro n h1 h2
    rw [getElem_seg a lo hi n h1, getElem_seg b lo hi n h2]
    rw [length_seg] at h1
    exact h (lo + n) (by omega) (by omega)

theorem seg_split (a : List Int) (lo m hi : Nat) (h1 : lo ≤ m) (h2 : m ≤ hi) :
    seg a lo hi = seg a lo m ++ seg a (m + 1) hi := by
  have hidx : hi + 1 - lo = (m + 1 - lo) + (hi - m) := by omega
  have e1 : lo + (m + 1 - lo) = m + 1 := by omega
  have e2 : hi - m = hi + 1 - (m + 1) := by omega
  simp only [seg]
  rw [hidx, List.take_add, List.drop_drop, e1, e2]

theorem mergeSeg_spec (a orig : List Int) (osize left mid right : Nat)
    (h1 : left ≤ mid) (h2 : mid < right) (h3 : right < a.length) :
    (mergeSeg a orig osize left mid right).1.1
      = writeRun a left (mergeLists ((a.drop left).take (mid - left + 1))
          ((a.drop (mid + 1)).take (right - mid))) := by
  set la := (a.drop left).take (mid - left + 1) with hla
  set ra := (a.drop (mid + 1)).take (right - mid) with hra
  have hlal : la.length = mid - left + 1 := by
    rw [hla]
    simp
    omega
  have hral : ra.length = right - mid := by
    rw [hra]
    simp
    omega
  have hred : (mergeSeg a orig osize left mid right).1.1
      = (mergeCopyRight ra osize
          (mergeCopyLeft la osize
            (mergeLoop la ra osize left mid
              ⟨a, orig, 0, 0, left⟩ ((mid - left + 1) + (right - mid))).1
            (mid - left + 1)).1 (right - mid)).1.arr := by
    simp only [mergeSeg]
  obtain ⟨pre, hEq, hArr, hK, hI1, hI2, hJ1, hJ2, hEnd⟩ :=
    mergeLoop_spec la ra osize left mid ((mid - left + 1) + (right - mid))
      a orig 0 0 left (Nat.zero_le _) (Nat.zero_le _)
      (by rw [hlal, hral]; omega)
  rw [List.drop_zero, List.drop_zero] at hEq
  set R1 := (mergeLoop la ra osize left mid ⟨a, orig, 0, 0, left⟩
    ((mid - left + 1) + (right - mid))).1 with hR1
  have heta1 : (⟨R1.arr, R1.orig, R1.i, R1.j, R1.k⟩ : MergeSt) = R1 := rfl
  obtain ⟨hA2, hJ2', hK2⟩ := mergeCopyLeft_spec la osize (mid - left + 1)
    R1.arr R1.orig R1.i R1.j R1.k hI2 (by rw [hlal]; omega)
  rw [heta1] at hA2 hJ2' hK2
  set R2 := (mergeCopyLeft la osize R1 (mid - left + 1)).1 with hR2
  have heta2 : (⟨R2.arr, R2.orig, R2.i, R2.j, R2.k⟩ : MergeSt) = R2 := rfl
  obtain ⟨hA3, hK3⟩ := mergeCopyRight_spec ra osize (right - mid)
    R2.arr R2.orig R2.i R2.j R2.k (by rw [hJ2']; exact hJ2)
    (by rw [hJ2', hral]; omega)
  rw [heta2] at hA3 hK3
  rw [hred, hA3, hJ2', hK2, hA2, hK, hArr]
  rcases hEnd with hia | hja
  · rw [hia, List.drop_length]
    have hz : la.length - R1.i = 0 := by omega
    have hml : mergeLists (la.drop R1.i) (ra.drop R1.j) = ra.drop R1.j := by
      rw [hia, List.drop_length]
      simp [mergeLists]
    rw [hEq, hml, writeRun_append]
    have hwnil : writeRun (writeRun a left pre) (left + pre.length) []
        = writeRun a left pre := rfl
    rw [hwnil]
    have e : left + pre.length + (la.length - la.length) = left + pre.length := by
      omega
    rw [e]
  · rw [hja, List.drop_length]
    have hml : mergeLists (la.drop R1.i) (ra.drop R1.j) = la.drop R1.i := by
      rw [hja, List.drop_length, mergeLists_nil_right]
    have hwnil : ∀ (b : List Int) (k : Nat), writeRun b k [] = b := fun _ _ => rfl
    rw [hwnil, hEq, hml, writeRun_append]

theorem merge_sortF_spec (osize : Nat) : ∀ (fuel : Nat) (a : List Int)
    (left right : Nat) (orig : List Int),
    right + 1 - left ≤ fuel → right < a.length →
    ((merge_sortF osize fuel a left right orig).1.1.length = a.length ∧
     (merge_sortF osize fuel a left right orig).1.1.Perm a ∧
     (∀ k, k < left ∨ right < k →
       (merge_sortF osize fuel a left right orig).1.1.getD k 0 = a.getD k 0) ∧
     List.Sorted (fun x y : Int => x ≤ y)
       (seg (merge_sortF osize fuel a left right orig).1.1 left right)) := by
  intro fuel
  induction fuel with
  | zero =>
    intro a left right orig hf hh
    have h0 : right + 1 - left = 0 := by omega
    refine ⟨rfl, List.Perm.refl _, fun k _ => rfl, ?_⟩
    show List.Sorted (fun x y : Int => x ≤ y) (seg a left right)
    rw [seg, h0, List.take_zero]
    exact List.sorted_nil
  | succ fuel ih =>
    intro a left right orig hf hh
    by_cases hlr : left < right
    · obtain ⟨L1, P1, U1, S1⟩ := ih a left (left + (right - left) / 2) orig
        (by omega) (by omega)
      set mid := left + (right - left) / 2 with hmid
      have hm1 : left ≤ mid := by omega
      have hm2 : mid < right := by omega
      set A1 := (merge_sortF osize fuel a left mid orig).1.1 with hA1d
      set O1 := (merge_sortF osize fuel a left mid orig).1.2 with hO1d
      obtain ⟨L2, P2, U2, S2⟩ := ih A1 (mid + 1) right O1
        (by omega) (by rw [L1]; omega)
      set A2 := (merge_sortF osize fuel A1 (mid + 1) right O1).1.1 with hA2d
      set O2 := (merge_sortF osize fuel A1 (mid + 1) right O1).1.2 with hO2d
      have hL2a : A2.length = a.length := by rw [L2, L1]
      have hred : (merge_sortF osize (fuel + 1) a left right orig).1.1
          = (mergeSeg A2 O2 osize left mid right).1.1 := by
        simp only [merge_sortF]
        rw [if_pos hlr]
      have hms := mergeSeg_spec A2 O2 osize left mid right hm1 hm2
        (by rw [hL2a]; omega)
      have hlaeq : (A2.drop left).take (mid - left + 1) = seg A2 left mid := by
        rw [seg]
        congr 1
        omega
      have hraeq : (A2.drop (mid + 1)).take (right - mid) = seg A2 (mid + 1) right := by
        rw [seg]
        congr 1
        omega
      rw [hlaeq, hraeq] at hms
      set M := mergeLists (seg A2 left mid) (seg A2 (mid + 1) right) with hMd
      have hlseg1 : (seg A2 left mid).length = mid + 1 - left := by
        rw [length_seg, hL2a]
        omega
      have hlseg2 : (seg A2 (mid + 1) right).length = right - mid := by
        rw [length_seg, hL2a]
        omega
      have hMlen : M.length = (mid + 1 - left) + (right - mid) := by
        rw [hMd, length_mergeLists ((seg A2 left mid).length
          + (seg A2 (mid + 1) right).length) _ _ (le_refl _), hlseg1, hlseg2]
      have hkb : left + M.length = right + 1 := by
        rw [hMlen]
        omega
      have hseg_eq : seg A2 left mid = seg A1 left mid :=
        seg_eq_of_getD_eq A2 A1 left mid L2 (fun k _ hk2 => U2 k (by omega))
      have hs1 : List.Sorted (fun x y : Int => x ≤ y) (seg A2 left mid) := by
        rw [hseg_eq]
        exact S1
      have hMsorted : List.Sorted (fun x y : Int => x ≤ y) M :=
        sorted_mergeLists ((seg A2 left mid).length
          + (seg A2 (mid + 1) right).length) _ _ (le_refl _) hs1 S2
      refine ⟨?_, ?_, ?_, ?_⟩
      · rw [hred, hms, length_writeRun, hL2a]
      · rw [hred, hms]
        rw [writeRun_eq M A2 left (by omega)]
        have hp : M.Perm (seg A2 left right) := by
          rw [seg_split A2 left mid right hm1 (by omega)]
          exact perm_mergeLists ((seg A2 left mid).length
            + (seg A2 (mid + 1) right).length) _ _ (le_refl _)
        have hdropidx : A2.drop (left + M.length) = A2.drop (right + 1) := by
          rw [hkb]
        rw [hdropidx]
        have hPmid : (A2.take left ++ M ++ A2.drop (right + 1)).Perm A2 := by
          conv_rhs => rw [seg_decomp A2 left right (by omega)]
          exact ((hp.append_left (A2.take left)).append_right (A2.drop (right + 1)))
        exact hPmid.trans (P2.trans P1)
      · intro k hk
        rw [hred, hms]
        have hout : A2.getD k 0 = a.getD k 0 := by
          rw [U2 k (by omega), U1 k (by omega)]
        rcases hk with hk | hk
        · rw [getD_writeRun_lt M A2 left k hk]
          exact hout
        · rw [getD_writeRun_ge M A2 left k (by omega)]
          exact hout
      · rw [hred, hms]
        have hsegfinal : seg (writeRun A2 left M) left right = M := by
          apply List.ext_getElem
          · rw [length_seg, length_writeRun, hL2a, hMlen]
            omega
          · intro n h1 h2
            rw [getElem_seg _ left right n h1]
            rw [length_seg, length_writeRun] at h1
            rw [getD_writeRun_in M A2 left n (by omega) (by omega)]
            exact List.getD_eq_getElem M 0 h2
        rw [hsegfinal]
        exact hMsorted
    · have hred : (merge_sortF osize (fuel + 1) a left right orig).1.1 = a := by
        simp only [merge_sortF]
        rw [if_neg hlr]
      rw [hred]
      refine ⟨rfl, List.Perm.refl _, fun k _ => rfl, ?_⟩
      have hl1 : (seg a left right).length ≤ 1 := by
        rw [length_seg]
        omega
      rcases hsg : seg a left right with _ | ⟨x, l⟩
      · exact List.sorted_nil
      · rw [hsg] at hl1
        simp only [List.length_cons] at hl1
        have h2 : l = [] := List.eq_nil_of_length_eq_zero (by omega)
        rw [h2]
        exact List.sorted_singleton x

theorem merge_sort_wrapper_sorted_perm (a : List Int) :
    (merge_sort_wrapper a a.length).1.length = a.length ∧
    (merge_sort_wrapper a a.length).1.Perm a ∧
    List.Sorted (fun x y : Int => x ≤ y) (merge_sort_wrapper a a.length).1 := by
  have harr : (merge_sort_wrapper a a.length).1
      = (merge_sortF a.length (a.length - 1 + 1 - 0) a 0 (a.length - 1) a).1.1 := rfl
  by_cases h0 : a.length = 0
  · have ha : a = [] := List.eq_nil_of_length_eq_zero h0
    rw [harr, ha]
    exact ⟨rfl, List.Perm.refl _, List.sorted_nil⟩
  · obtain ⟨L, P, _, S⟩ := merge_sortF_spec a.length (a.length - 1 + 1 - 0) a 0
      (a.length - 1) a (le_refl _) (by omega)
    rw [harr]
    refine ⟨L, P, ?_⟩
    have hsegfull : ∀ (l : List Int), l.length = a.length →
        seg l 0 (a.length - 1) = l := by
      intro l hl
      rw [seg, List.drop_zero]
      have e : a.length - 1 + 1 - 0 = l.length := by omega
      rw [e, List.take_length]
    rw [← hsegfull _ L]
    exact S

/-- C2: for every input array that fits the program's `MAX_ARRAY_SIZE` bound,
each sorting operation (bubble, selection, insertion, quick, merge) terminates,
and the `data` field of the final Step it emits is non-decreasing and a
permutation of the input multiset. -/
theorem c2_sorting_final_step (a : List Int) (h : a.length ≤ MAX_ARRAY_SIZE) :
    (∃ s, (bubble_sort a a.length).2.getLast? = some s ∧
      List.Sorted (fun x y : Int => x ≤ y) s.data ∧ s.data.Perm a) ∧
    (∃ s, (selection_sort a a.length).2.getLast? = some s ∧
      List.Sorted (fun x y : Int => x ≤ y) s.data ∧ s.data.Perm a) ∧
    (∃ s, (insertion_sort a a.length).2.getLast? = some s ∧
      List.Sorted (fun x y : Int => x ≤ y) s.data ∧ s.data.Perm a) ∧
    (∃ s, (quick_sort_wrapper a a.length).2.getLast? = some s ∧
      List.Sorted (fun x y : Int => x ≤ y) s.data ∧ s.data.Perm a) ∧
    (∃ s, (merge_sort_wrapper a a.length).2.getLast? = some s ∧
      List.Sorted (fun x y : Int => x ≤ y) s.data ∧ s.data.Perm a) := by
  have hms : a.length ≤ MAX_SIZE := le_trans h (by decide)
  obtain ⟨bL, bP, bS⟩ := bubble_sort_sorted_perm a
  obtain ⟨sL, sP, sS⟩ := selection_sort_sorted_perm a
  obtain ⟨iL, iP, iS⟩ := insertion_sort_sorted_perm a
  obtain ⟨qL, qP, qS⟩ := quick_sort_wrapper_sorted_perm a
  obtain ⟨mL, mP, mS⟩ := merge_sort_wrapper_sorted_perm a
  have hb2 : (bubble_sort a a.length).2
      = (bubbleOuter a.length a 0 (a.length - 1)).2
        ++ [mkStep "BUBBLE_COMPLETE" (bubble_sort a a.length).1 a.length
             (some (List.replicate MAX_SIZE 0)) none
             "Bubble sort completed" "O(n^2)"] := rfl
  have hs2 : (selection_sort a a.length).2
      = (selOuter a.length a 0 (a.length - 1)).2
        ++ [mkStep "SELECTION_COMPLETE" (selection_sort a a.length).1 a.length
             (some (List.replicate MAX_SIZE 0)) none
             "Selection sort completed" "O(n^2)"] := rfl
  have hi2 : (insertion_sort a a.length).2
      = (insOuter a.length a 1 (a.length - 1)).2
        ++ [mkStep "INSERTION_COMPLETE" (insertion_sort a a.length).1 a.length
             (some (List.replicate MAX_SIZE 0)) none
             "Insertion sort completed" "O(n^2)"] := rfl
  have hq2 : (quick_sort_wrapper a a.length).2
      = mkStep "QUICK_START" a a.length
          (some (List.replicate MAX_SIZE (0 : Int))) none
          "Starting Quick Sort Algorithm" "O(n log n)"
        :: ((quick_sort a a.length 0 (a.length - 1)).2
          ++ [mkStep "QUICK_COMPLETE" (quick_sort_wrapper a a.length).1 a.length
               (some (List.replicate MAX_SIZE (0 : Int))) none
               "Quick Sort Completed - Array is sorted" "O(n log n)"]) := rfl
  have hm2 : (merge_sort_wrapper a a.length).2
      = mkStep "MERGE_START" a a.length
          (some (List.replicate MAX_SIZE (0 : Int))) none
          "Starting Merge Sort Algorithm" "O(n log n)"
        :: ((merge_sortF a.length (a.length - 1 + 1 - 0) a 0 (a.length - 1) a).2
          ++ [mkStep "MERGE_COMPLETE" (merge_sort_wrapper a a.length).1 a.length
               (some (List.replicate MAX_SIZE (0 : Int))) none
               "Merge Sort Completed - Array is sorted" "O(n log n)"]) := rfl
  refine ⟨?_, ?_, ?_, ?_, ?_⟩
  · refine ⟨mkStep "BUBBLE_COMPLETE" (bubble_sort a a.length).1 a.length
      (some (List.replicate MAX_SIZE 0)) none
      "Bubble sort completed" "O(n^2)", ?_, ?_, ?_⟩
    · rw [hb2]
      exact List.getLast?_concat _
    · rw [mkStep_data_of_length _ _ _ _ _ _ _ bL hms]
      exact bS
    · rw [mkStep_data_of_length _ _ _ _ _ _ _ bL hms]
      exact bP
  · refine ⟨mkStep "SELECTION_COMPLETE" (selection_sort a a.length).1 a.length
      (some (List.replicate MAX_SIZE 0)) none
      "Selection sort completed" "O(n^2)", ?_, ?_, ?_⟩
    · rw [hs2]
      exact List.getLast?_concat _
    · rw [mkStep_data_of_length _ _ _ _ _ _ _ sL hms]
      exact sS
    · rw [mkStep_data_of_length _ _ _ _ _ _ _ sL hms]
      exact sP
  · refine ⟨mkStep "INSERTION_COMPLETE" (insertion_sort a a.length).1 a.length
      (some (List.replicate MAX_SIZE 0)) none
      "Insertion sort completed" "O(n^2)", ?_, ?_, ?_⟩
    · rw [hi2]
      exact List.getLast?_concat _
    · rw [mkStep_data_of_length _ _ _ _ _ _ _ iL hms]
      exact iS
    · rw [mkStep_data_of_length _ _ _ _ _ _ _ iL hms]
      exact iP
  · refine ⟨mkStep "QUICK_COMPLETE" (quick_sort_wrapper a a.length).1 a.length
      (some (List.replicate MAX_SIZE (0 : Int))) none
      "Quick Sort Completed - Array is sorted" "O(n log n)", ?_, ?_, ?_⟩
    · rw [hq2]
      exact getLast?_cons_concat _ _ _
    · rw [mkStep_data_of_length _ _ _ _ _ _ _ qL hms]
      exact qS
    · rw [mkStep_data_of_length _ _ _ _ _ _ _ qL hms]
      exact qP
  · refine ⟨mkStep "MERGE_COMPLETE" (merge_sort_wrapper a a.length).1 a.length
      (some (List.replicate MAX_SIZE (0 : Int))) none
      "Merge Sort Completed - Array is sorted" "O(n log n)", ?_, ?_, ?_⟩
    · rw [hm2]
      exact getLast?_cons_concat _ _ _
    · rw [mkStep_data_of_length _ _ _ _ _ _ _ mL hms]
      exact mS
    · rw [mkStep_data_of_length _ _ _ _ _ _ _ mL hms]
      exact mP


theorem c2_sorting_final_step_witness :
    ([3, 1, 2] : List Int).length ≤ MAX_ARRAY_SIZE ∧
    ((∃ s, (bubble_sort [3, 1, 2] ([3, 1, 2] : List Int).length).2.getLast?
        = some s ∧
      List.Sorted (fun x y : Int => x ≤ y) s.data ∧
      s.data.Perm ([3, 1, 2] : List Int)) ∧
    (∃ s, (selection_sort [3, 1, 2] ([3, 1, 2] : List Int).length).2.getLast?
        = some s ∧
      List.Sorted (fun x y : Int => x ≤ y) s.data ∧
      s.data.Perm ([3, 1, 2] : List Int)) ∧
    (∃ s, (insertion_sort [3, 1, 2] ([3, 1, 2] : List Int).length).2.getLast?
        = some s ∧
      List.Sorted (fun x y : Int => x ≤ y) s.data ∧
      s.data.Perm ([3, 1, 2] : List Int)) ∧
    (∃ s, (quick_sort_wrapper [3, 1, 2] ([3, 1, 2] : List Int).length).2.getLast?
        = some s ∧
      List.Sorted (fun x y : Int => x ≤ y) s.data ∧
      s.data.Perm ([3, 1, 2] : List Int)) ∧
    (∃ s, (merge_sort_wrapper [3, 1, 2] ([3, 1, 2] : List Int).length).2.getLast?
        = some s ∧
      List.Sorted (fun x y : Int => x ≤ y) s.data ∧
      s.data.Perm ([3, 1, 2] : List Int))) :=
  ⟨by decide, c2_sorting_final_step [3, 1, 2] (by decide)⟩

end FODS
